import Mathlib

/-!
Verification of `data_process/read_hdf5.py`: an HDF5 inspection utility with
three operations (explore, extract, compare) over a tree of groups and
dataset leaves.  The container tree, traversal order, path strings, dict
semantics, numeric summaries, preview truncation, scoped open/close and the
command-line dispatch are embedded below, and the stated properties are
proved about that embedding.
-/

namespace ReadHdf5

/-- A dataset leaf of an HDF5 container: static shape, dtype tag, whether the
dtype is a numeric kind (models `np.issubdtype(dtype, np.number)`), and the
row-major flat element content that `obj[()]` reads. -/
structure Dset where
  shape : List Nat
  dtype : String
  numeric : Bool
  data : List Rat
deriving DecidableEq

mutual
/-- A node of the HDF5 tree: a group owning an ordered list of named children,
or a dataset leaf. -/
inductive Node where
  | group (cs : Entries)
  | dataset (d : Dset)
deriving DecidableEq

/-- Ordered named children of a group, in store order. -/
inductive Entries where
  | nil
  | cons (k : String) (c : Node) (rest : Entries)
deriving DecidableEq
end

/-- A valid HDF5 link name: nonempty and free of the path separator. -/
def validKey (k : String) : Bool :=
  decide (k ≠ "") && decide ('/' ∉ k.data)

mutual
/-- Well-formedness of a node: every group has pairwise-distinct child keys
and all keys are valid HDF5 link names. -/
def wfNode : Node → Bool
  | .group cs => wfEntries cs
  | .dataset _ => true

/-- Well-formedness of a children list (see `wfNode`). -/
def wfEntries : Entries → Bool
  | .nil => true
  | .cons k c rest =>
      validKey k && decide (k ∉ entKeys rest) && wfNode c && wfEntries rest

/-- The list of child keys of a children list. -/
def entKeys : Entries → List String
  | .nil => []
  | .cons k _ rest => k :: entKeys rest
end

/-- The child-path builder of `analyze_group`:
`current_path = f"{path}/{key}" if path else key`. -/
def childName (pre k : String) : String :=
  if pre = "" then k else pre ++ "/" ++ k

/-- Slash-joined path string of a nonempty component list, as h5py's
`visititems` produces for every non-root node. -/
def joinComps : List String → String
  | [] => ""
  | [k] => k
  | k :: k2 :: rest => k ++ "/" ++ joinComps (k2 :: rest)

/-- First-match lookup in an ordered association list, as Python dict lookup
restricted to the keys present. -/
def lookupD {α : Type} : List (String × α) → String → Option α
  | [], _ => none
  | (k, v) :: rest, q => if k = q then some v else lookupD rest q

/-- Python dict assignment `m[k] = v`: replaces the value in place if the key
is present, otherwise appends the binding, preserving insertion order. -/
def dictInsert {α : Type} (m : List (String × α)) (k : String) (v : α) :
    List (String × α) :=
  match m with
  | [] => [(k, v)]
  | (k2, v2) :: rest =>
      if k2 = k then (k, v) :: rest else (k2, v2) :: dictInsert rest k v

/-- Python set insertion keyed by first occurrence: adds the element at the
end unless already present. -/
def setInsert (s : List String) (k : String) : List String :=
  if k ∈ s then s else s ++ [k]

mutual
/-- Every dataset leaf below a node, paired with its path from that node as a
component list, in `visititems` (store, parent-before-child) order. -/
def dsetPathsN : Node → List (List String × Dset)
  | .group cs => dsetPathsE cs
  | .dataset _ => []

/-- Dataset leaves below a children list (see `dsetPathsN`). -/
def dsetPathsE : Entries → List (List String × Dset)
  | .nil => []
  | .cons k c rest =>
      (match c with
        | .dataset d => [([k], d)]
        | .group cs => (dsetPathsE cs).map (fun pd => (k :: pd.1, pd.2))) ++
      dsetPathsE rest
end

mutual
/-- Number of dataset leaves below a node. -/
def leafCountN : Node → Nat
  | .group cs => leafCountE cs
  | .dataset _ => 1

/-- Number of dataset leaves below a children list. -/
def leafCountE : Entries → Nat
  | .nil => 0
  | .cons _ c rest => leafCountN c + leafCountE rest
end

/-- First child with the given key, if any. -/
def findChild : Entries → String → Option Node
  | .nil, _ => none
  | .cons k c rest, q => if k = q then some c else findChild rest q

/-- Exact resolution of a component list from a node: the empty list resolves
to the node itself, and each component must be a child key of a group. -/
def resolveStrict : Node → List String → Option Node
  | t, [] => some t
  | .group cs, k :: ks =>
      match findChild cs k with
      | some c => resolveStrict c ks
      | none => none
  | .dataset _, _ :: _ => none

/-- Splits a character list on `'/'`. -/
def splitSlash : List Char → List (List Char)
  | [] => [[]]
  | c :: rest =>
      match splitSlash rest with
      | [] => [[]]
      | g :: gs => if c = '/' then [] :: g :: gs else (c :: g) :: gs

/-- The nonempty slash-separated components of a path string.  Leading,
trailing and repeated separators are dropped, as in HDF5 path
normalization. -/
def pathComps (p : String) : List String :=
  ((splitSlash p.data).filter (fun g => g ≠ [])).map (fun g => ⟨g⟩)

/-- Models h5py path resolution, used by `dataset_path in f` and
`f[dataset_path]`: resolve the normalized components from the root. -/
def resolvePath (t : Node) (p : String) : Option Node :=
  resolveStrict t (pathComps p)

mutual
/-- Names printed for dataset nodes by a `visititems` walk (the callbacks
`print_datasets` and `collect_data` fire exactly on these), for a non-root
node whose own path prefix is `pre`. -/
def dnamesN (pre : String) : Node → List String
  | .group cs => dnamesE pre cs
  | .dataset _ => [pre]

/-- Dataset names below a children list whose owning group has path `pre`
(the empty string for the root). -/
def dnamesE (pre : String) : Entries → List String
  | .nil => []
  | .cons k c rest => dnamesN (childName pre k) c ++ dnamesE pre rest
end

/-- All dataset path names of a container, in `visititems` order: what
`extract_data` prints as the available datasets. -/
def datasetNames (t : Node) : List String :=
  match t with
  | .group cs => dnamesE "" cs
  | .dataset _ => []

/-- Total element count of an array of the given shape (`data.size`). -/
def dsize (d : Dset) : Nat := d.shape.prod

/-- Number of axes (`data.ndim`). -/
def ndim (d : Dset) : Nat := d.shape.length

/-- Minimum element (`np.min`) of a flat nonempty array. -/
def npMin : List Rat → Rat
  | [] => 0
  | x :: xs => xs.foldl min x

/-- Maximum element (`np.max`) of a flat nonempty array. -/
def npMax : List Rat → Rat
  | [] => 0
  | x :: xs => xs.foldl max x

/-- Arithmetic mean (`np.mean`) of a flat array. -/
def npMean (l : List Rat) : Rat := l.sum / l.length

/-- Population variance: mean of squared deviations, divisor `N`.
`np.std` is the square root of this quantity. -/
def npVar (l : List Rat) : Rat :=
  (l.map (fun x => (x - npMean l) ^ 2)).sum / l.length

/-- A value printed with `:.6f`, represented in integer micro-units:
`fmt6 q = n` means the printed text is `n / 10^6` with six fractional
digits. -/
def fmt6 (q : Rat) : Int := round (q * 1000000)

/-- The `:.6f` rendering of the square root of a nonnegative rational, in
integer micro-units: `round (sqrt v * 10^6)` computed exactly over the
integers (models printing `np.std`, the square root of the population
variance). -/
def sqrtFmt6 (v : Rat) : Int :=
  ((Nat.sqrt (4 * (v.num.toNat * 1000000000000) * v.den) + v.den) /
    (2 * v.den) : Nat)

/-- What the verbose data-sample block prints for one array dataset: either a
flat list of elements, or only the shape. -/
inductive Preview where
  | data (flat : List Rat)
  | shapeOnly (shape : List Nat)
deriving DecidableEq

/-- The verbose preview of an array dataset (lines 89-100): the full array
when `size ≤ 20`, otherwise a numpy slice depending on dimensionality
(`data[:10]`, `data[:3, :]`, `data[:2, :2, :]`), and for four or more axes
only the shape.  Slices are expressed on the row-major flat content. -/
def previewArr (d : Dset) : Preview :=
  if dsize d ≤ 20 then .data d.data
  else
    match d.shape with
    | [_] => .data (d.data.take 10)
    | [r, c] => .data (d.data.take (min 3 r * c))
    | [a, b, c] =>
        .data ((List.range (min 2 a)).flatMap
          (fun i => (d.data.drop (i * (b * c))).take (min 2 b * c)))
    | _ => .shapeOnly d.shape

/-- Everything the detailed-analysis block of `explore_hdf5` emits for one
dataset beyond its path, shape and dtype: the numeric summary line (in
micro-units), the verbose data sample, and the scalar value for a non-array
leaf. -/
structure DsetReport where
  stats : Option (Int × Int × Int × Int)
  preview : Option Preview
  scalar : Option Rat
deriving DecidableEq

/-- The per-dataset analysis of `explore_hdf5` (lines 77-102).  A dataset of
empty shape reads as a numpy scalar, so only its value is printed; an array
gets the `Min/Max/Mean/Std` line when it is nonempty and numeric, and the
data sample when it is nonempty and `verbose` is set. -/
def reportDset (verbose : Bool) (d : Dset) : DsetReport :=
  if d.shape = [] then
    { stats := none, preview := none, scalar := some d.data.headI }
  else
    { stats :=
        if 0 < dsize d ∧ d.numeric = true then
          some (fmt6 (npMin d.data), fmt6 (npMax d.data),
            fmt6 (npMean d.data), sqrtFmt6 (npVar d.data))
        else none
      preview :=
        if 0 < dsize d ∧ verbose = true then some (previewArr d) else none
      scalar := none }

/-- Grouping of a flat row-major array into rows of `n` consecutive
elements: the nested view of a 2-D array of row length `n`. -/
def chunkList {α : Type} (n : Nat) : List α → List (List α)
  | [] => []
  | x :: xs =>
      if n = 0 then []
      else (x :: xs).take n :: chunkList n ((x :: xs).drop n)
termination_by l => l.length
decreasing_by
  simp only [List.length_drop, List.length_cons]
  omega

instance exceptDecEq {ε α : Type} [DecidableEq ε] [DecidableEq α] :
    DecidableEq (Except ε α) := fun x y =>
  match x, y with
  | .ok a, .ok b =>
      if h : a = b then .isTrue (by rw [h])
      else .isFalse (by intro hh; cases hh; exact h rfl)
  | .ok _, .error _ => .isFalse (by intro hh; cases hh)
  | .error _, .ok _ => .isFalse (by intro hh; cases hh)
  | .error e, .error f =>
      if h : e = f then .isTrue (by rw [h])
      else .isFalse (by intro hh; cases hh; exact h rfl)

/-- Failures of an operation: an unreadable container path (the open step),
a failing dataset read (corrupted leaf), or indexing a group with `[()]`
(a `TypeError` in h5py).  None of these is caught by the script. -/
inductive Err where
  | fileAccess (p : String)
  | readErr (name : String)
  | groupRead (p : String)
deriving DecidableEq

/-- Observable resource events of a run: a container opened, a container
closed (the `with` block), a dataset content read (`obj[()]`). -/
inductive Ev where
  | opened (p : String)
  | closed (p : String)
  | readEv (name : String)
deriving DecidableEq

/-- The filesystem visible to an operation: container trees by path. -/
def FS : Type := List (String × Node)

/-- Opening a container: first tree stored at the path, if any. -/
def lookupFS : FS → String → Option Node
  | [], _ => none
  | (k, t) :: rest, p => if k = p then some t else lookupFS rest p

/-- A read oracle: whether reading the full content of the object accessed by
the given path string succeeds.  `fun _ => true` is a healthy file. -/
def RO : Type := String → Bool

mutual
/-- The `analyze_group` recursion of `explore_hdf5` on one non-root node with
path `name`: reads every dataset (aborting on a failing read) and collects
the per-dataset reports, together with the read events. -/
def analyzeNode (ro : RO) (verbose : Bool) (name : String) :
    Node → Except Err Unit × List Ev × List (String × DsetReport)
  | .group cs => analyzeEntries ro verbose name cs
  | .dataset d =>
      if ro name then (.ok (), [.readEv name], [(name, reportDset verbose d)])
      else (.error (.readErr name), [], [])

/-- The `analyze_group` recursion on the children of a group with path
`pre` (empty for the root). -/
def analyzeEntries (ro : RO) (verbose : Bool) (pre : String) :
    Entries → Except Err Unit × List Ev × List (String × DsetReport)
  | .nil => (.ok (), [], [])
  | .cons k c rest =>
      match analyzeNode ro verbose (childName pre k) c with
      | (.ok _, tr, rs) =>
          match analyzeEntries ro verbose pre rest with
          | (r2, tr2, rs2) => (r2, tr ++ tr2, rs ++ rs2)
      | (.error e, tr, rs) => (.error e, tr, rs)
end

/-- `explore_hdf5(file_path, verbose)`: open the container (uncaught failure
if the path is not readable), walk the whole tree analyzing every dataset,
and close the handle on every exit path (the `with` block).  Yields the
outcome, the resource trace, and the emitted per-dataset reports. -/
def explore_hdf5 (fs : FS) (ro : RO) (p : String) (verbose : Bool) :
    Except Err Unit × List Ev × List (String × DsetReport) :=
  match lookupFS fs p with
  | none => (.error (.fileAccess p), [], [])
  | some t =>
      match analyzeNode ro verbose "" t with
      | (r, tr, rs) => (r, .opened p :: (tr ++ [.closed p]), rs)

mutual
/-- The `visititems(collect_data)` walk: reads every dataset below the node
into the accumulated Python dict, aborting on a failing read. -/
def collectNode (ro : RO) (name : String) (acc : List (String × Dset)) :
    Node → Except Err (List (String × Dset)) × List Ev
  | .group cs => collectEntries ro name acc cs
  | .dataset d =>
      if ro name then (.ok (dictInsert acc name d), [.readEv name])
      else (.error (.readErr name), [])

/-- The collecting walk over the children of a group with path `pre`. -/
def collectEntries (ro : RO) (pre : String) (acc : List (String × Dset)) :
    Entries → Except Err (List (String × Dset)) × List Ev
  | .nil => (.ok acc, [])
  | .cons k c rest =>
      match collectNode ro (childName pre k) acc c with
      | (.ok acc2, tr) =>
          match collectEntries ro pre acc2 rest with
          | (r, tr2) => (r, tr ++ tr2)
      | (.error e, tr) => (.error e, tr)
end

/-- The value `extract_data` returns when it returns data: a single
dataset's content, or the dict of every dataset's content by path. -/
inductive ExtractVal where
  | single (d : Dset)
  | all (m : List (String × Dset))
deriving DecidableEq

/-- Everything observable about one `extract_data` call: the returned value
(`.ok none` is Python's `None`, the absence signal), the printed list of
available datasets (not-found branch), the printed dataset count (extract-all
branch), and the resource trace. -/
structure ExtractOutput where
  result : Except Err (Option ExtractVal)
  available : Option (List String)
  count : Option Nat
  trace : List Ev

/-- Python truthiness of the optional `--extract` / `--save` string argument:
`None` and the empty string are falsy. -/
def truthyStr : Option String → Bool
  | none => false
  | some s => !(s == "")

/-- Python truthiness of the optional `--compare` list argument: `None` and
the empty list are falsy. -/
def truthyList : Option (List String) → Bool
  | none => false
  | some l => !l.isEmpty

/-- `extract_data(file_path, dataset_path)` (lines 117-145): open the
container; with a truthy `dataset_path`, test membership and either read and
return that object's content (a `TypeError` if it is a group), or report
not-found, print the available dataset paths and return `None`; with no
truthy `dataset_path`, read every dataset into a dict and report its size.
The handle is closed on every exit path. -/
def extract_data (fs : FS) (ro : RO) (p : String) (dpath : Option String) :
    ExtractOutput :=
  match lookupFS fs p with
  | none => ⟨.error (.fileAccess p), none, none, []⟩
  | some t =>
      if truthyStr dpath then
        let dp := dpath.getD ""
        match resolvePath t dp with
        | some (.dataset d) =>
            if ro dp then
              ⟨.ok (some (.single d)), none, none,
                .opened p :: ([.readEv dp] ++ [.closed p])⟩
            else ⟨.error (.readErr dp), none, none, .opened p :: [.closed p]⟩
        | some (.group _) =>
            ⟨.error (.groupRead dp), none, none, .opened p :: [.closed p]⟩
        | none =>
            ⟨.ok none, some (datasetNames t), none, .opened p :: [.closed p]⟩
      else
        match collectNode ro "" [] t with
        | (.ok m, tr) =>
            ⟨.ok (some (.all m)), none, some m.length,
              .opened p :: (tr ++ [.closed p])⟩
        | (.error e, tr) =>
            ⟨.error e, none, none, .opened p :: (tr ++ [.closed p])⟩

/-- One per-file entry of a comparison row: the dataset's shape and dtype in
that file, or the explicit missing marker. -/
inductive Cell where
  | info (shape : List Nat) (dtype : String)
  | missing
deriving DecidableEq

/-- One emitted comparison row: a unified dataset path and, per compared
file (keyed by its path, in `all_data` insertion order), its cell. -/
structure Row where
  key : String
  cells : List (String × Cell)
deriving DecidableEq

/-- The loading loop of `compare_episodes`: for each file path in order, open
the container (uncaught failure if unreadable), read every dataset below it
into a per-file dict, close the handle, and store the per-file dict in the
`all_data` dict keyed by the file path. -/
def loadFiles (fs : FS) (ro : RO)
    (acc : List (String × List (String × Dset))) :
    List String →
      Except Err (List (String × List (String × Dset))) × List Ev
  | [] => (.ok acc, [])
  | fp :: rest =>
      match lookupFS fs fp with
      | none => (.error (.fileAccess fp), [])
      | some t =>
          match collectNode ro "" [] t with
          | (.ok m, tr) =>
              match loadFiles fs ro (dictInsert acc fp m) rest with
              | (r, tr2) => (r, (.opened fp :: (tr ++ [.closed fp])) ++ tr2)
          | (.error e, tr) =>
              (.error e, .opened fp :: (tr ++ [.closed fp]))

/-- The union of dataset paths across the loaded files, in accumulation
order before sorting. -/
def allKeys (ad : List (String × List (String × Dset))) : List String :=
  ad.foldl (fun acc fd => fd.2.foldl (fun a kv => setInsert a kv.1) acc) []

/-- The cell printed for one file and one unified path: shape and dtype if
the path is a dataset of that file, else the missing marker. -/
def cellOf (m : List (String × Dset)) (q : String) : Cell :=
  match lookupD m q with
  | some d => .info d.shape d.dtype
  | none => .missing

/-- `compare_episodes(file_paths)` (lines 148-181): load every file's
datasets (content included), then for every unified dataset path in
lexicographically sorted order emit a row with one cell per loaded file.
Only shape and dtype are shown; array content is never compared. -/
def compare_episodes (fs : FS) (ro : RO) (fps : List String) :
    Except Err (List Row) × List Ev :=
  match loadFiles fs ro [] fps with
  | (.error e, tr) => (.error e, tr)
  | (.ok ad, tr) =>
      (.ok (((allKeys ad).insertionSort (· ≤ ·)).map
        (fun q => ⟨q, ad.map (fun fd => (fd.1, cellOf fd.2 q))⟩)), tr)

/-- The parsed command-line arguments.  `argparse` guarantees `file` is
present and `--compare`, given `nargs='+'`, is either absent or a nonempty
list. -/
structure Args where
  file : String
  verbose : Bool
  extract : Option String
  compare : Option (List String)
  save : Option String

/-- One top-level operation performed by a program run. -/
inductive Op where
  | exploredOp (file : String) (verbose : Bool)
  | extractedOp (file : String) (dpath : Option String)
  | savedOp (out : String)
  | comparedOp (fps : List String)
deriving DecidableEq

/-- The `__main__` dispatch (lines 198-206): `if args.compare:` run the
comparison; `elif args.extract:` run extraction and then save exactly when
the extraction returned data (`is not None`) and `args.save` is truthy;
`else` run exploration with the verbose flag.  Yields the run outcome and
the operations performed. -/
def mainRun (fs : FS) (ro : RO) (a : Args) : Except Err Unit × List Op :=
  if truthyList a.compare then
    ((compare_episodes fs ro (a.compare.getD [])).1.map (fun _ => ()),
      [.comparedOp (a.compare.getD [])])
  else if truthyStr a.extract then
    let o := extract_data fs ro a.file a.extract
    match o.result with
    | .ok (some _) =>
        if truthyStr a.save then
          (.ok (), [.extractedOp a.file a.extract, .savedOp (a.save.getD "")])
        else (.ok (), [.extractedOp a.file a.extract])
    | .ok none => (.ok (), [.extractedOp a.file a.extract])
    | .error e => (.error e, [.extractedOp a.file a.extract])
  else
    ((explore_hdf5 fs ro a.file a.verbose).1, [.exploredOp a.file a.verbose])

/-- Folding the source's `current_path` builder along a component list. -/
def strName (pre : String) (comps : List String) : String :=
  comps.foldl childName pre

/-- The datasets below a children list with their full path strings, in
`visititems` order, for an owning group of path `pre`. -/
def namedDsets (pre : String) (cs : Entries) : List (String × Dset) :=
  (dsetPathsE cs).map (fun pd => (strName pre pd.1, pd.2))

/-- All keys of a component list are valid link names. -/
def keysValid (l : List String) : Bool := l.all validKey

/-- Order of first occurrence with duplicates dropped: the key order of a
Python dict populated by assignments along the list. -/
def firstDedup (fps : List String) : List String := fps.foldl setInsert []

/-- A dataset with every element replaced by zero: same shape and dtype,
different content. -/
def scrubD (d : Dset) : Dset :=
  ⟨d.shape, d.dtype, d.numeric, d.data.map fun _ => 0⟩

mutual
/-- A container with every array element replaced by zero: same tree shape,
same dataset shapes and dtypes, different content. -/
def scrubN : Node → Node
  | .group cs => .group (scrubE cs)
  | .dataset d => .dataset (scrubD d)

/-- Content scrubbing of a children list (see `scrubN`). -/
def scrubE : Entries → Entries
  | .nil => .nil
  | .cons k c rest => .cons k (scrubN c) (scrubE rest)
end

/-- Content scrubbing of a whole filesystem. -/
def scrubFS (fs : FS) : FS := fs.map fun pt => (pt.1, scrubN pt.2)

/-- Value scrubbing of one file's collected dict. -/
def msD (m : List (String × Dset)) : List (String × Dset) :=
  m.map fun kv => (kv.1, scrubD kv.2)

/-- Value scrubbing of the accumulated `all_data` dict. -/
def msAD (ad : List (String × List (String × Dset))) :
    List (String × List (String × Dset)) :=
  ad.map fun fd => (fd.1, msD fd.2)

/-- The dict of datasets `compare_episodes` collects for one file. -/
def dictOf (fs : FS) (fp : String) : List (String × Dset) :=
  match lookupFS fs fp with
  | some (.group cs) =>
      (namedDsets "" cs).foldl (fun m kv => dictInsert m kv.1 kv.2) []
  | _ => []

/-- The read events produced while collecting one file. -/
def readsOf (fs : FS) (fp : String) : List Ev :=
  match lookupFS fs fp with
  | some (.group cs) => (namedDsets "" cs).map (fun kv => Ev.readEv kv.1)
  | _ => []

/-- A resource trace is balanced when every container opened is also closed
the same number of times. -/
def balanced (tr : List Ev) : Prop :=
  ∀ q, tr.count (.opened q) = tr.count (.closed q)

/-- Concrete fixture: a small numeric vector dataset. -/
def dsW1 : Dset := ⟨[3], "float64", true, [1, 2, 3]⟩

/-- Concrete fixture: a small integer matrix dataset. -/
def dsW2 : Dset := ⟨[2, 2], "int64", true, [4, 5, 6, 7]⟩

/-- Concrete fixture: children of a container holding dataset `x` and group
`g` with dataset `g/y`. -/
def entW : Entries :=
  .cons "x" (.dataset dsW1)
    (.cons "g" (.group (.cons "y" (.dataset dsW2) .nil)) .nil)

/-- Concrete fixture: the container over `entW`. -/
def treeW : Node := .group entW

/-- Concrete fixture: children of a second container missing dataset `x`. -/
def entW2 : Entries := .cons "g" (.group (.cons "y" (.dataset dsW2) .nil)) .nil

/-- Concrete fixture: a second container missing dataset `x`. -/
def treeW2 : Node := .group entW2

/-- Concrete fixture: a filesystem holding the two containers. -/
def fsW : FS := [("a.h5", treeW), ("b.h5", treeW2)]

/-- Concrete fixture: the always-healthy read oracle. -/
def roW : RO := fun _ => true

/-- Concrete fixture: the numeric array `[1, 2, 3, 4]`. -/
def dsC3 : Dset := ⟨[4], "float64", true, [1, 2, 3, 4]⟩

theorem validKey_iff (k : String) :
    validKey k = true ↔ k ≠ "" ∧ '/' ∉ k.data := by
  simp [validKey]

theorem ne_empty_of_data {s : String} (h : s.data ≠ []) : s ≠ "" := by
  intro he
  subst he
  exact h rfl

theorem data_ne_of_ne {s : String} (h : s ≠ "") : s.data ≠ [] := by
  intro hd
  exact h (String.ext hd)

theorem childName_of_ne (pre k : String) (h : pre ≠ "") :
    childName pre k = pre ++ "/" ++ k := by
  simp [childName, h]

theorem data_childName (pre k : String) (h : pre ≠ "") :
    (childName pre k).data = pre.data ++ '/' :: k.data := by
  simp [childName_of_ne pre k h, String.data_append]

theorem childName_ne (pre k : String) (h : pre ≠ "") :
    childName pre k ≠ "" := by
  apply ne_empty_of_data
  rw [data_childName pre k h]
  simp

theorem joinComps_cons (k k2 : String) (l : List String) :
    joinComps (k :: k2 :: l) = k ++ "/" ++ joinComps (k2 :: l) := rfl

theorem data_joinComps_cons (k k2 : String) (l : List String) :
    (joinComps (k :: k2 :: l)).data = k.data ++ '/' :: (joinComps (k2 :: l)).data := by
  rw [joinComps_cons]
  simp [String.data_append]

theorem joinComps_ne_empty (l : List String) (hv : keysValid l = true)
    (hne : l ≠ []) : joinComps l ≠ "" := by
  match l with
  | [k] =>
      simp only [keysValid, List.all_cons, List.all_nil, Bool.and_true] at hv
      exact ((validKey_iff k).mp hv).1
  | k :: k2 :: rest =>
      apply ne_empty_of_data
      rw [data_joinComps_cons]
      simp

theorem sep_inj : ∀ (a b x y : List Char), '/' ∉ a → '/' ∉ b →
    a ++ '/' :: x = b ++ '/' :: y → a = b ∧ x = y := by
  intro a
  induction a with
  | nil =>
      intro b x y _ hb h
      match b with
      | [] => simpa using h
      | c :: bs =>
          simp only [List.nil_append, List.cons_append, List.cons.injEq] at h
          exact absurd (h.1 ▸ List.mem_cons_self '/' bs) (by
            intro hmem
            exact hb (h.1 ▸ hmem))
  | cons c as ih =>
      intro b x y ha hb h
      match b with
      | [] =>
          simp only [List.cons_append, List.nil_append, List.cons.injEq] at h
          exact absurd (h.1.symm ▸ List.mem_cons_self '/' as) (by
            intro hmem
            exact ha (h.1 ▸ hmem))
      | d :: bs =>
          simp only [List.cons_append, List.cons.injEq] at h
          obtain ⟨hcd, hrest⟩ := h
          have ha2 : '/' ∉ as := fun hm => ha (List.mem_cons_of_mem c hm)
          have hb2 : '/' ∉ bs := fun hm => hb (List.mem_cons_of_mem d hm)
          obtain ⟨h1, h2⟩ := ih bs x y ha2 hb2 hrest
          exact ⟨by rw [hcd, h1], h2⟩

theorem joinComps_inj : ∀ (l m : List String), keysValid l = true →
    keysValid m = true → l ≠ [] → m ≠ [] →
    joinComps l = joinComps m → l = m := by
  intro l
  induction l with
  | nil => intro m _ _ hne; exact absurd rfl hne
  | cons a l2 ih =>
      intro m hvl hvm _ hmne h
      simp only [keysValid, List.all_cons, Bool.and_eq_true] at hvl
      obtain ⟨hva, hvl2⟩ := hvl
      match m with
      | [] => exact absurd rfl hmne
      | b :: m2 =>
          simp only [keysValid, List.all_cons, Bool.and_eq_true] at hvm
          obtain ⟨hvb, hvm2⟩ := hvm
          match l2, m2 with
          | [], [] => rw [show a = b from h]
          | [], c :: m3 =>
              exfalso
              have hd : a.data = b.data ++ '/' :: (joinComps (c :: m3)).data := by
                have := congrArg String.data h
                rwa [data_joinComps_cons] at this
              exact ((validKey_iff a).mp hva).2 (hd ▸ (List.mem_append.mpr
                (Or.inr (List.mem_cons_self _ _))))
          | c :: l3, [] =>
              exfalso
              have hd : b.data = a.data ++ '/' :: (joinComps (c :: l3)).data := by
                have := congrArg String.data h.symm
                rwa [data_joinComps_cons] at this
              exact ((validKey_iff b).mp hvb).2 (hd ▸ (List.mem_append.mpr
                (Or.inr (List.mem_cons_self _ _))))
          | c :: l3, e :: m3 =>
              have hd := congrArg String.data h
              rw [data_joinComps_cons, data_joinComps_cons] at hd
              obtain ⟨h1, h2⟩ := sep_inj _ _ _ _ ((validKey_iff a).mp hva).2
                ((validKey_iff b).mp hvb).2 hd
              have hab : a = b := String.ext h1
              have hj : joinComps (c :: l3) = joinComps (e :: m3) := String.ext h2
              have := ih (e :: m3) hvl2 hvm2 (by simp) (by simp) hj
              rw [hab, this]

theorem strName_nil (pre : String) : strName pre [] = pre := rfl

theorem strName_cons (pre k : String) (l : List String) :
    strName pre (k :: l) = strName (childName pre k) l := rfl

theorem strName_of_ne (l : List String) (pre : String) (hpre : pre ≠ "")
    (hv : keysValid l = true) (hl : l ≠ []) :
    strName pre l = pre ++ "/" ++ joinComps l := by
  induction l generalizing pre with
  | nil => exact absurd rfl hl
  | cons k l2 ih =>
      rw [strName_cons, childName_of_ne pre k hpre]
      simp only [keysValid, List.all_cons, Bool.and_eq_true] at hv
      match l2 with
      | [] => rfl
      | k2 :: l3 =>
          rw [ih (pre ++ "/" ++ k) (by
              apply ne_empty_of_data
              simp [String.data_append]) hv.2 (by simp),
            joinComps_cons, ← String.append_assoc, ← String.append_assoc]

theorem strName_root (l : List String) (hv : keysValid l = true)
    (hne : l ≠ []) : strName "" l = joinComps l := by
  match l with
  | k :: rest =>
      rw [strName_cons]
      have hck : childName "" k = k := by simp [childName]
      rw [hck]
      simp only [keysValid, List.all_cons, Bool.and_eq_true] at hv
      match rest with
      | [] => rfl
      | k2 :: l3 =>
          rw [strName_of_ne (k2 :: l3) k ((validKey_iff k).mp hv.1).1 hv.2
            (by simp)]
          rfl

theorem pathsE_valid (cs : Entries) (h : wfEntries cs = true) :
    ∀ pd ∈ dsetPathsE cs, pd.1 ≠ [] ∧ keysValid pd.1 = true := by
  match cs with
  | .nil => simp [dsetPathsE]
  | .cons k c rest =>
      simp only [wfEntries, Bool.and_eq_true] at h
      obtain ⟨⟨⟨hk, _⟩, hc⟩, hrest⟩ := h
      intro pd hm
      cases c with
      | dataset d =>
          simp only [dsetPathsE, List.singleton_append, List.mem_cons] at hm
          rcases hm with hm | hm
          · subst hm
            exact ⟨by simp, by simp [keysValid, hk]⟩
          · exact pathsE_valid rest hrest pd hm
      | group cs2 =>
          simp only [dsetPathsE, List.mem_append, List.mem_map] at hm
          rcases hm with ⟨pd2, hpd2, hmap⟩ | hm
          · simp only [wfNode] at hc
            have := pathsE_valid cs2 hc pd2 hpd2
            subst hmap
            refine ⟨by simp, ?_⟩
            simp only [keysValid, List.all_cons, Bool.and_eq_true]
            exact ⟨hk, this.2⟩
          · exact pathsE_valid rest hrest pd hm

theorem pathsE_head (cs : Entries) :
    ∀ pd ∈ dsetPathsE cs, ∃ q qs, pd.1 = q :: qs ∧ q ∈ entKeys cs := by
  match cs with
  | .nil => simp [dsetPathsE]
  | .cons k c rest =>
      intro pd hm
      cases c with
      | dataset d =>
          simp only [dsetPathsE, List.singleton_append, List.mem_cons] at hm
          rcases hm with hm | hm
          · subst hm
            exact ⟨k, [], rfl, by simp [entKeys]⟩
          · obtain ⟨q, qs, h1, h2⟩ := pathsE_head rest pd hm
            exact ⟨q, qs, h1, by simp [entKeys, h2]⟩
      | group cs2 =>
          simp only [dsetPathsE, List.mem_append, List.mem_map] at hm
          rcases hm with ⟨pd2, _, hmap⟩ | hm
          · subst hmap
            exact ⟨k, pd2.1, rfl, by simp [entKeys]⟩
          · obtain ⟨q, qs, h1, h2⟩ := pathsE_head rest pd hm
            exact ⟨q, qs, h1, by simp [entKeys, h2]⟩

theorem pathsE_nodup (cs : Entries) (h : wfEntries cs = true) :
    ((dsetPathsE cs).map Prod.fst).Nodup := by
  match cs with
  | .nil => simp [dsetPathsE]
  | .cons k c rest =>
      simp only [wfEntries, Bool.and_eq_true] at h
      obtain ⟨⟨⟨hk, hknot⟩, hc⟩, hrest⟩ := h
      simp only [decide_eq_true_eq] at hknot
      have hrestnodup := pathsE_nodup rest hrest
      have hheadrest : ∀ l ∈ (dsetPathsE rest).map Prod.fst,
          ∃ q qs, l = q :: qs ∧ q ∈ entKeys rest := by
        intro l hl
        simp only [List.mem_map] at hl
        obtain ⟨pd, hpd, hfst⟩ := hl
        obtain ⟨q, qs, h1, h2⟩ := pathsE_head rest pd hpd
        exact ⟨q, qs, hfst ▸ h1, h2⟩
      cases c with
      | dataset d =>
          simp only [dsetPathsE, List.singleton_append, List.map_cons,
            List.nodup_cons]
          refine ⟨?_, hrestnodup⟩
          intro hmem
          obtain ⟨q, qs, h1, h2⟩ := hheadrest [k] hmem
          cases h1
          exact hknot h2
      | group cs2 =>
          simp only [wfNode] at hc
          simp only [dsetPathsE, List.map_append, List.map_map]
          apply List.Nodup.append
          · have := pathsE_nodup cs2 hc
            have hinj : Function.Injective
                (fun l : List String => k :: l) := by
              intro x y hxy
              simpa using hxy
            simpa [Function.comp] using this.map
              (f := fun l : List String => k :: l) hinj
          · exact hrestnodup
          · intro a ha hb
            simp only [List.mem_map, Function.comp] at ha
            obtain ⟨pd, _, hfst⟩ := ha
            obtain ⟨q, qs, h1, h2⟩ := hheadrest a hb
            rw [← hfst] at h1
            simp only [List.cons.injEq] at h1
            exact hknot (h1.1 ▸ h2)

theorem findChild_cons (k : String) (c : Node) (rest : Entries) (q : String) :
    findChild (.cons k c rest) q = if k = q then some c else findChild rest q :=
  rfl

theorem pathsE_resolve (cs : Entries) (h : wfEntries cs = true)
    (comps : List String) (d : Dset) :
    (comps, d) ∈ dsetPathsE cs ↔
      comps ≠ [] ∧ resolveStrict (.group cs) comps = some (.dataset d) := by
  match cs with
  | .nil =>
      simp only [dsetPathsE, List.not_mem_nil, false_iff, not_and]
      intro hne
      match comps with
      | [] => exact absurd rfl hne
      | q :: qs => simp [resolveStrict, findChild]
  | .cons k c rest =>
      simp only [wfEntries, Bool.and_eq_true] at h
      obtain ⟨⟨⟨hk, hknot⟩, hc⟩, hrest⟩ := h
      simp only [decide_eq_true_eq] at hknot
      have hstep : ∀ q qs, q ≠ k →
          (resolveStrict (.group (.cons k c rest)) (q :: qs) =
            resolveStrict (.group rest) (q :: qs)) := by
        intro q qs hqk
        have hne2 : ¬ k = q := fun h2 => hqk h2.symm
        simp only [resolveStrict, findChild_cons, if_neg hne2]
      have hresthead : ∀ p2 : List String × Dset, p2 ∈ dsetPathsE rest →
          ∃ q qs, p2.1 = q :: qs ∧ q ≠ k := by
        intro p2 hp2
        obtain ⟨q, qs, h1, h2⟩ := pathsE_head rest p2 hp2
        exact ⟨q, qs, h1, fun he => hknot (he ▸ h2)⟩
      cases c with
      | dataset d2 =>
          simp only [dsetPathsE, List.singleton_append, List.mem_cons]
          constructor
          · rintro (hm | hm)
            · rw [Prod.mk.injEq] at hm
              obtain ⟨h1, h2⟩ := hm
              subst h1; subst h2
              simp [resolveStrict, findChild_cons]
            · have := (pathsE_resolve rest hrest comps d).mp hm
              obtain ⟨q, qs, h1, h2⟩ := hresthead (comps, d) hm
              have h1b : comps = q :: qs := h1
              refine ⟨this.1, ?_⟩
              rw [h1b] at this ⊢
              rw [hstep q qs h2]
              exact this.2
          · rintro ⟨hne, hres⟩
            match comps with
            | [] => exact absurd rfl hne
            | q :: qs =>
                by_cases hqk : q = k
                · subst hqk
                  simp only [resolveStrict, findChild_cons, if_pos rfl] at hres
                  match qs with
                  | [] =>
                      simp only [resolveStrict, Option.some.injEq] at hres
                      cases hres
                      exact Or.inl rfl
                  | q2 :: qs2 => simp [resolveStrict] at hres
                · rw [hstep q qs hqk] at hres
                  exact Or.inr ((pathsE_resolve rest hrest (q :: qs) d).mpr
                    ⟨by simp, hres⟩)
      | group cs2 =>
          simp only [wfNode] at hc
          simp only [dsetPathsE, List.mem_append, List.mem_map]
          constructor
          · rintro (⟨pd2, hpd2, hmap⟩ | hm)
            · rw [Prod.mk.injEq] at hmap
              obtain ⟨hcomps, hd⟩ := hmap
              subst hcomps
              subst hd
              have : (pd2.1, pd2.2) ∈ dsetPathsE cs2 := hpd2
              have hr := (pathsE_resolve cs2 hc pd2.1 pd2.2).mp this
              refine ⟨by simp, ?_⟩
              simp only [resolveStrict, findChild_cons, if_pos rfl]
              exact hr.2
            · have := (pathsE_resolve rest hrest comps d).mp hm
              obtain ⟨q, qs, h1, h2⟩ := hresthead (comps, d) hm
              have h1b : comps = q :: qs := h1
              refine ⟨this.1, ?_⟩
              rw [h1b] at this ⊢
              rw [hstep q qs h2]
              exact this.2
          · rintro ⟨hne, hres⟩
            match comps with
            | [] => exact absurd rfl hne
            | q :: qs =>
                by_cases hqk : q = k
                · subst hqk
                  simp only [resolveStrict, findChild_cons, if_pos rfl] at hres
                  match qs with
                  | [] => simp [resolveStrict] at hres
                  | q2 :: qs2 =>
                      have := (pathsE_resolve cs2 hc (q2 :: qs2) d).mpr
                        ⟨by simp, hres⟩
                      exact Or.inl ⟨(q2 :: qs2, d), this, rfl⟩
                · rw [hstep q qs hqk] at hres
                  exact Or.inr ((pathsE_resolve rest hrest (q :: qs) d).mpr
                    ⟨by simp, hres⟩)

theorem pathsE_length (cs : Entries) :
    (dsetPathsE cs).length = leafCountE cs := by
  match cs with
  | .nil => simp [dsetPathsE, leafCountE]
  | .cons k c rest =>
      cases c with
      | dataset d =>
          simp only [dsetPathsE, leafCountE, leafCountN, List.singleton_append,
            List.length_cons, pathsE_length rest]
          omega
      | group cs2 =>
          simp only [dsetPathsE, leafCountE, leafCountN, List.length_append,
            List.length_map, pathsE_length rest, pathsE_length cs2]

theorem namedDsets_nil (pre : String) : namedDsets pre .nil = [] := rfl

theorem namedDsets_cons_dataset (pre k : String) (d : Dset) (rest : Entries) :
    namedDsets pre (.cons k (.dataset d) rest) =
      (childName pre k, d) :: namedDsets pre rest := by
  simp [namedDsets, dsetPathsE, strName]

theorem namedDsets_cons_group (pre k : String) (cs2 rest : Entries) :
    namedDsets pre (.cons k (.group cs2) rest) =
      namedDsets (childName pre k) cs2 ++ namedDsets pre rest := by
  simp only [namedDsets, dsetPathsE, List.map_append, List.map_map]
  congr 1

theorem dnamesE_eq (pre : String) (cs : Entries) :
    dnamesE pre cs = (namedDsets pre cs).map Prod.fst := by
  match cs with
  | .nil => rfl
  | .cons k c rest =>
      cases c with
      | dataset d =>
          simp only [dnamesE, dnamesN, namedDsets_cons_dataset, List.map_cons]
          rw [dnamesE_eq pre rest]
          rfl
      | group cs2 =>
          simp only [dnamesE, dnamesN, namedDsets_cons_group, List.map_append]
          rw [dnamesE_eq (childName pre k) cs2, dnamesE_eq pre rest]

theorem lookupD_append_none {α : Type} (m m2 : List (String × α)) (q : String)
    (h : lookupD m q = none) : lookupD (m ++ m2) q = lookupD m2 q := by
  induction m with
  | nil => rfl
  | cons kv rest ih =>
      match kv with
      | (k, v) =>
          simp only [lookupD] at h
          by_cases hk : k = q
          · simp [hk] at h
          · simp only [List.cons_append, lookupD, if_neg hk]
            exact ih (by simpa [lookupD, if_neg hk] using h)

theorem dictInsert_of_fresh {α : Type} (m : List (String × α)) (k : String)
    (v : α) (h : lookupD m k = none) : dictInsert m k v = m ++ [(k, v)] := by
  induction m with
  | nil => rfl
  | cons kv rest ih =>
      match kv with
      | (k2, v2) =>
          simp only [lookupD] at h
          by_cases hk : k2 = k
          · simp [hk] at h
          · simp only [dictInsert, if_neg hk, List.cons_append]
            rw [ih (by simpa [lookupD, if_neg hk] using h)]

theorem foldl_dictInsert_fresh {α : Type} :
    ∀ (pairs : List (String × α)) (acc : List (String × α)),
    (pairs.map Prod.fst).Nodup →
    (∀ k ∈ pairs.map Prod.fst, lookupD acc k = none) →
    pairs.foldl (fun m kv => dictInsert m kv.1 kv.2) acc = acc ++ pairs := by
  intro pairs
  induction pairs with
  | nil => intro acc _ _; simp
  | cons kv rest ih =>
      intro acc hnodup hfresh
      match kv with
      | (k, v) =>
          simp only [List.map_cons, List.nodup_cons] at hnodup
          simp only [List.foldl_cons]
          rw [dictInsert_of_fresh acc k v (hfresh k (by simp))]
          rw [ih (acc ++ [(k, v)]) hnodup.2 ?_]
          · simp
          · intro q hq
            rw [lookupD_append_none acc [(k, v)] q (hfresh q (by simp [hq]))]
            simp only [lookupD]
            rw [if_neg ?_]
            intro hkq
            exact hnodup.1 (hkq ▸ hq)

theorem collectE_ok (ro : RO) (hro : ∀ q, ro q = true) (cs : Entries) :
    ∀ (pre : String) (acc : List (String × Dset)),
    collectEntries ro pre acc cs =
      (.ok ((namedDsets pre cs).foldl (fun m kv => dictInsert m kv.1 kv.2) acc),
       (namedDsets pre cs).map (fun kv => Ev.readEv kv.1)) := by
  match cs with
  | .nil => intro pre acc; simp [collectEntries, namedDsets_nil]
  | .cons k c rest =>
      intro pre acc
      cases c with
      | dataset d =>
          simp [collectEntries, collectNode, hro (childName pre k),
            namedDsets_cons_dataset,
            collectE_ok ro hro rest pre (dictInsert acc (childName pre k) d)]
      | group cs2 =>
          simp [collectEntries, collectNode, namedDsets_cons_group,
            collectE_ok ro hro cs2 (childName pre k) acc,
            collectE_ok ro hro rest pre
              ((namedDsets (childName pre k) cs2).foldl
                (fun m kv => dictInsert m kv.1 kv.2) acc)]

theorem lookupD_nil {α : Type} (q : String) :
    lookupD ([] : List (String × α)) q = none := rfl

theorem mem_namedDsets (pre : String) (cs : Entries) (q : String) (d : Dset) :
    (q, d) ∈ namedDsets pre cs ↔
      ∃ comps, (comps, d) ∈ dsetPathsE cs ∧ q = strName pre comps := by
  simp only [namedDsets, List.mem_map]
  constructor
  · rintro ⟨pd, hpd, hmap⟩
    rw [Prod.mk.injEq] at hmap
    exact ⟨pd.1, by rw [show (pd.1, d) = pd from by
        rw [Prod.mk.injEq]; exact ⟨rfl, hmap.2.symm⟩]; exact hpd, hmap.1.symm⟩
  · rintro ⟨comps, hmem, hq⟩
    exact ⟨(comps, d), hmem, by rw [Prod.mk.injEq]; exact ⟨hq.symm, rfl⟩⟩

theorem namedDsets_root_keys (cs : Entries) (h : wfEntries cs = true) :
    (namedDsets "" cs).map Prod.fst =
      ((dsetPathsE cs).map Prod.fst).map joinComps := by
  simp only [namedDsets, List.map_map]
  apply List.map_congr_left
  intro pd hpd
  obtain ⟨hne, hv⟩ := pathsE_valid cs h pd hpd
  simp only [Function.comp]
  exact strName_root pd.1 hv hne

theorem namedDsets_keys_nodup (cs : Entries) (h : wfEntries cs = true) :
    ((namedDsets "" cs).map Prod.fst).Nodup := by
  rw [namedDsets_root_keys cs h]
  apply List.Nodup.map_on ?_ (pathsE_nodup cs h)
  intro x hx y hy hxy
  have hxv : x ≠ [] ∧ keysValid x = true := by
    simp only [List.mem_map] at hx
    obtain ⟨pd, hpd, hfst⟩ := hx
    exact hfst ▸ pathsE_valid cs h pd hpd
  have hyv : y ≠ [] ∧ keysValid y = true := by
    simp only [List.mem_map] at hy
    obtain ⟨pd, hpd, hfst⟩ := hy
    exact hfst ▸ pathsE_valid cs h pd hpd
  exact joinComps_inj x y hxv.2 hyv.2 hxv.1 hyv.1 hxy

/-- C1: for a container with `N` dataset leaves, `extract_data` with no
dataset path returns a dict with exactly one entry per dataset path — bound
to that dataset's full content — whose size is `N`, and it reports `N` as
the extracted count. -/
theorem extract_all_mapping (fs : FS) (ro : RO) (p : String) (cs : Entries)
    (hfs : lookupFS fs p = some (.group cs))
    (hwf : wfNode (.group cs) = true) (hro : ∀ q, ro q = true) :
    ∃ m : List (String × Dset),
      (extract_data fs ro p none).result = .ok (some (.all m)) ∧
      (extract_data fs ro p none).count = some m.length ∧
      m.length = leafCountN (.group cs) ∧
      (m.map Prod.fst).Nodup ∧
      (∀ q d, (q, d) ∈ m ↔ ∃ comps, comps ≠ [] ∧ q = joinComps comps ∧
        resolveStrict (.group cs) comps = some (.dataset d)) := by
  simp only [wfNode] at hwf
  refine ⟨namedDsets "" cs, ?_, ?_, ?_, ?_, ?_⟩
  · simp only [extract_data, hfs, truthyStr, Bool.false_eq_true, if_false,
      collectNode, collectE_ok ro hro cs "" []]
    rw [foldl_dictInsert_fresh (namedDsets "" cs) []
      (namedDsets_keys_nodup cs hwf) (fun k _ => lookupD_nil k)]
    simp
  · simp only [extract_data, hfs, truthyStr, Bool.false_eq_true, if_false,
      collectNode, collectE_ok ro hro cs "" []]
    rw [foldl_dictInsert_fresh (namedDsets "" cs) []
      (namedDsets_keys_nodup cs hwf) (fun k _ => lookupD_nil k)]
    simp
  · simp only [namedDsets, List.length_map, leafCountN]
    exact pathsE_length cs
  · exact namedDsets_keys_nodup cs hwf
  · intro q d
    rw [mem_namedDsets]
    constructor
    · rintro ⟨comps, hmem, hq⟩
      obtain ⟨hne, hv⟩ := pathsE_valid cs hwf (comps, d) hmem
      have hres := (pathsE_resolve cs hwf comps d).mp hmem
      exact ⟨comps, hne, by rw [hq]; exact strName_root comps hv hne, hres.2⟩
    · rintro ⟨comps, hne, hq, hres⟩
      have hmem := (pathsE_resolve cs hwf comps d).mpr ⟨hne, hres⟩
      obtain ⟨_, hv⟩ := pathsE_valid cs hwf (comps, d) hmem
      exact ⟨comps, hmem, by rw [hq]; exact (strName_root comps hv hne).symm⟩

/-- Witness for C1 at a concrete two-leaf container. -/
theorem extract_all_mapping_witness :
    lookupFS fsW "a.h5" = some (.group entW) ∧
    wfNode (.group entW) = true ∧
    (∃ m : List (String × Dset),
      (extract_data fsW roW "a.h5" none).result = .ok (some (.all m)) ∧
      (extract_data fsW roW "a.h5" none).count = some m.length ∧
      m.length = leafCountN (.group entW) ∧
      (m.map Prod.fst).Nodup ∧
      (∀ q d, (q, d) ∈ m ↔ ∃ comps, comps ≠ [] ∧ q = joinComps comps ∧
        resolveStrict (.group entW) comps = some (.dataset d))) :=
  ⟨by decide, by decide,
    extract_all_mapping fsW roW "a.h5" entW (by decide) (by decide)
      (fun _ => rfl)⟩

theorem mem_datasetNames (cs : Entries) (h : wfEntries cs = true) (q : String) :
    q ∈ datasetNames (.group cs) ↔ ∃ comps d, comps ≠ [] ∧
      q = joinComps comps ∧
      resolveStrict (.group cs) comps = some (.dataset d) := by
  simp only [datasetNames, dnamesE_eq "" cs]
  constructor
  · intro hq
    simp only [List.mem_map] at hq
    obtain ⟨kv, hkv, hfst⟩ := hq
    have : (kv.1, kv.2) ∈ namedDsets "" cs := hkv
    obtain ⟨comps, hmem, heq⟩ := (mem_namedDsets "" cs kv.1 kv.2).mp this
    obtain ⟨hne, hv⟩ := pathsE_valid cs h (comps, kv.2) hmem
    have hres := (pathsE_resolve cs h comps kv.2).mp hmem
    exact ⟨comps, kv.2, hne,
      by rw [← hfst, heq]; exact strName_root comps hv hne, hres.2⟩
  · rintro ⟨comps, d, hne, hq, hres⟩
    have hmem := (pathsE_resolve cs h comps d).mpr ⟨hne, hres⟩
    obtain ⟨_, hv⟩ := pathsE_valid cs h (comps, d) hmem
    simp only [List.mem_map]
    refine ⟨(q, d), ?_, rfl⟩
    exact (mem_namedDsets "" cs q d).mpr
      ⟨comps, hmem, by rw [hq]; exact (strName_root comps hv hne).symm⟩

/-- C2: for an absent dataset path, `extract_data` returns the absence
signal (`None`, not an exception) and the set of dataset paths it prints as
available is exactly the set of dataset paths present in the container. -/
theorem extract_absent (fs : FS) (ro : RO) (p dp : String) (cs : Entries)
    (hfs : lookupFS fs p = some (.group cs))
    (hwf : wfNode (.group cs) = true)
    (habs : resolvePath (.group cs) dp = none) :
    (extract_data fs ro p (some dp)).result = .ok none ∧
    (extract_data fs ro p (some dp)).available =
      some (datasetNames (.group cs)) ∧
    (∀ q, q ∈ datasetNames (.group cs) ↔ ∃ comps d, comps ≠ [] ∧
      q = joinComps comps ∧
      resolveStrict (.group cs) comps = some (.dataset d)) := by
  simp only [wfNode] at hwf
  have hdp : dp ≠ "" := by
    intro he
    subst he
    have : resolvePath (.group cs) "" = some (.group cs) := rfl
    rw [this] at habs
    cases habs
  have htr : truthyStr (some dp) = true := by
    simp [truthyStr, hdp]
  refine ⟨?_, ?_, fun q => mem_datasetNames cs hwf q⟩
  · simp [extract_data, hfs, htr, habs]
  · simp [extract_data, hfs, htr, habs]

/-- Witness for C2 at a concrete container and the absent path `/nope`. -/
theorem extract_absent_witness :
    lookupFS fsW "a.h5" = some (.group entW) ∧
    wfNode (.group entW) = true ∧
    resolvePath (.group entW) "/nope" = none ∧
    ((extract_data fsW roW "a.h5" (some "/nope")).result = .ok none ∧
     (extract_data fsW roW "a.h5" (some "/nope")).available =
       some (datasetNames (.group entW)) ∧
     (∀ q, q ∈ datasetNames (.group entW) ↔ ∃ comps d, comps ≠ [] ∧
       q = joinComps comps ∧
       resolveStrict (.group entW) comps = some (.dataset d))) :=
  ⟨by decide, by decide, by decide,
    extract_absent fsW roW "a.h5" "/nope" entW (by decide) (by decide)
      (by decide)⟩

/-- C9: a path that resolves to a group passes the membership test, and the
subsequent `[()]` read raises an uncaught error: `extract_data` neither
returns the absence signal nor any content. -/
theorem extract_group_path (fs : FS) (ro : RO) (p dp : String) (cs : Entries)
    (cs2 : Entries) (hfs : lookupFS fs p = some (.group cs)) (hne : dp ≠ "")
    (hgr : resolvePath (.group cs) dp = some (.group cs2)) :
    (extract_data fs ro p (some dp)).result = .error (.groupRead dp) ∧
    (∀ v, (extract_data fs ro p (some dp)).result ≠ .ok v) := by
  have htr : truthyStr (some dp) = true := by
    simp [truthyStr, hne]
  constructor
  · simp [extract_data, hfs, htr, hgr]
  · intro v
    simp [extract_data, hfs, htr, hgr]

/-- Witness for C9 at the concrete group path `g`. -/
theorem extract_group_path_witness :
    lookupFS fsW "a.h5" = some (.group entW) ∧
    ("g" : String) ≠ "" ∧
    resolvePath (.group entW) "g" =
      some (.group (.cons "y" (.dataset dsW2) .nil)) ∧
    ((extract_data fsW roW "a.h5" (some "g")).result =
        .error (.groupRead "g") ∧
     (∀ v, (extract_data fsW roW "a.h5" (some "g")).result ≠ .ok v)) :=
  ⟨by decide, by decide, by decide,
    extract_group_path fsW roW "a.h5" "g" entW (.cons "y" (.dataset dsW2) .nil)
      (by decide) (by decide) (by decide)⟩

theorem npMin_c3 : npMin [1, 2, 3, 4] = 1 := by
  norm_num [npMin, List.foldl, min_def]

theorem npMax_c3 : npMax [1, 2, 3, 4] = 4 := by
  norm_num [npMax, List.foldl, max_def]

theorem npMean_c3 : npMean [1, 2, 3, 4] = 5 / 2 := by
  norm_num [npMean, List.sum_cons, List.sum_nil]

theorem npVar_c3 : npVar [1, 2, 3, 4] = 5 / 4 := by
  norm_num [npVar, npMean_c3, List.map_cons, List.map_nil, List.sum_cons,
    List.sum_nil]

theorem natSqrt_c3 : Nat.sqrt 80000000000000 = 8944271 :=
  (Nat.eq_sqrt.mpr (by norm_num)).symm

theorem sqrtFmt6_c3 : sqrtFmt6 (5 / 4) = 1118034 := by
  have hnum : ((5 : ℚ) / 4).num = 5 := by norm_num
  have hden : ((5 : ℚ) / 4).den = 4 := by norm_num
  rw [sqrtFmt6, hnum, hden]
  have harg : 4 * ((5 : ℤ).toNat * 1000000000000) * 4 = 80000000000000 := by
    rfl
  rw [harg, natSqrt_c3]
  norm_num

/-- C3: for a nonempty numeric array dataset the analysis block emits the
minimum, maximum, arithmetic mean and population standard deviation of the
full array, each rendered with six fractional digits; on `[1, 2, 3, 4]` the
emitted micro-unit values are `1.000000`, `4.000000`, `2.500000` and
`1.118034`, and the standard-deviation figure equals the rounding of
`10^6 · √(variance with divisor N)` of the array. -/
theorem explore_numeric_stats :
    (∀ (verbose : Bool) (d : Dset), d.shape ≠ [] → 0 < dsize d →
      d.numeric = true →
      (reportDset verbose d).stats = some (fmt6 (npMin d.data),
        fmt6 (npMax d.data), fmt6 (npMean d.data), sqrtFmt6 (npVar d.data))) ∧
    (reportDset false dsC3).stats = some (1000000, 4000000, 2500000, 1118034) ∧
    (1118034 : ℤ) = round (Real.sqrt ((npVar [1, 2, 3, 4] : ℚ) : ℝ) * 1000000) := by
  refine ⟨?_, ?_, ?_⟩
  · intro verbose d hsh hsz hnum
    simp [reportDset, hsh, hsz, hnum]
  · have h1 : fmt6 (npMin dsC3.data) = 1000000 := by
      rw [show dsC3.data = [1, 2, 3, 4] from rfl, npMin_c3]
      norm_num [fmt6, round_eq]
    have h2 : fmt6 (npMax dsC3.data) = 4000000 := by
      rw [show dsC3.data = [1, 2, 3, 4] from rfl, npMax_c3]
      norm_num [fmt6, round_eq]
    have h3 : fmt6 (npMean dsC3.data) = 2500000 := by
      rw [show dsC3.data = [1, 2, 3, 4] from rfl, npMean_c3]
      norm_num [fmt6, round_eq]
    have h4 : sqrtFmt6 (npVar dsC3.data) = 1118034 := by
      rw [show dsC3.data = [1, 2, 3, 4] from rfl, npVar_c3, sqrtFmt6_c3]
    have hstats : (reportDset false dsC3).stats = some (fmt6 (npMin dsC3.data),
        fmt6 (npMax dsC3.data), fmt6 (npMean dsC3.data),
        sqrtFmt6 (npVar dsC3.data)) := by
      simp [reportDset, dsC3, dsize]
    rw [hstats, h1, h2, h3, h4]
  · have hv : ((npVar [1, 2, 3, 4] : ℚ) : ℝ) = 5 / 4 := by
      rw [npVar_c3]
      push_cast
      norm_num
    rw [hv]
    have hs0 : (0 : ℝ) ≤ Real.sqrt (5 / 4) := Real.sqrt_nonneg _
    have hs2 : Real.sqrt (5 / 4) ^ 2 = 5 / 4 := Real.sq_sqrt (by norm_num)
    rw [round_eq]
    have hlow : (1118033.5 : ℝ) ≤ Real.sqrt (5 / 4) * 1000000 := by
      nlinarith [hs0, hs2]
    have hhigh : Real.sqrt (5 / 4) * 1000000 < 1118034.5 := by
      nlinarith [hs0, hs2]
    symm
    rw [Int.floor_eq_iff]
    constructor
    · push_cast
      linarith
    · push_cast
      linarith

/-- Witness for C3: the general clause applied at the concrete array
`[1, 2, 3, 4]`. -/
theorem explore_numeric_stats_witness :
    dsC3.shape ≠ [] ∧ 0 < dsize dsC3 ∧ dsC3.numeric = true ∧
    (reportDset true dsC3).stats = some (fmt6 (npMin dsC3.data),
      fmt6 (npMax dsC3.data), fmt6 (npMean dsC3.data),
      sqrtFmt6 (npVar dsC3.data)) :=
  ⟨by decide, by decide, by decide,
    explore_numeric_stats.1 true dsC3 (by decide) (by decide) (by decide)⟩

theorem flatMap_const_nil {α β : Type} (l : List α) :
    (l.flatMap fun _ => ([] : List β)) = [] := by
  induction l with
  | nil => rfl
  | cons x xs ih => simp [List.flatMap_cons, ih]

theorem chunkList_cons {α : Type} (n : Nat) (x : α) (xs : List α)
    (hn : n ≠ 0) :
    chunkList n (x :: xs) =
      (x :: xs).take n :: chunkList n ((x :: xs).drop n) := by
  rw [chunkList]
  simp [hn]

theorem chunk_join_take {α : Type} :
    ∀ (k n : Nat) (l : List α),
    ((chunkList n l).take k).flatten = l.take (k * n) := by
  intro k
  induction k with
  | zero => intro n l; simp
  | succ k2 ih =>
      intro n l
      match l with
      | [] => simp [chunkList]
      | x :: xs =>
          by_cases hn : n = 0
          · subst hn
            simp [chunkList]
          · rw [chunkList_cons n x xs hn]
            simp only [List.take_succ_cons, List.flatten_cons, ih n]
            rw [show (k2 + 1) * n = n + k2 * n by ring, List.take_add]

theorem chunk_take_map_join {α : Type} :
    ∀ (k : Nat) (n m : Nat) (l : List α), 0 < n →
    (((chunkList n l).take k).map (fun blk => blk.take m)).flatten =
      (List.range k).flatMap (fun i => (l.drop (i * n)).take (min m n)) := by
  intro k
  induction k with
  | zero => intro n m l _; simp
  | succ k2 ih =>
      intro n m l hn
      match l with
      | [] =>
          simp only [chunkList, List.take_nil, List.map_nil,
            List.flatten_nil, List.drop_nil, List.take_nil]
          rw [flatMap_const_nil]
      | x :: xs =>
          rw [chunkList_cons n x xs (Nat.pos_iff_ne_zero.mp hn),
            List.take_succ_cons, List.map_cons, List.flatten_cons,
            List.range_succ_eq_map, List.flatMap_cons, List.flatMap_map]
          congr 1
          · rw [List.take_take]
            simp
          · rw [ih n m ((x :: xs).drop n) hn]
            apply List.flatMap_congr
            intro i _
            show (((x :: xs).drop n).drop (i * n)).take (min m n) = _
            rw [List.drop_drop]
            congr 2
            rw [Nat.succ_eq_add_one]
            ring

/-- Counterexample to C4 as stated: a nonzero-shape array dataset with zero
elements has count `0 ≤ 20`, yet in verbose mode the analysis block emits no
data at all (the sample block sits inside `if data.size > 0:`), rather than
emitting the full (empty) array. -/
theorem preview_empty_counterexample :
    dsize ⟨[0], "float64", true, []⟩ ≤ 20 ∧
    (⟨[0], "float64", true, []⟩ : Dset).shape ≠ [] ∧
    (reportDset true ⟨[0], "float64", true, []⟩).preview = none ∧
    (reportDset true ⟨[0], "float64", true, []⟩).preview ≠
      some (.data ([] : List Rat)) := by
  refine ⟨by decide, by decide, by decide, by decide⟩

/-- C4 (amended: for array datasets with at least one element): in verbose
mode, a dataset of at most 20 elements is emitted in full; a larger one is
previewed as its first 10 elements when 1-D, its first 3 rows when 2-D, its
first 2 x 2 leading slice (all of the last axis) when 3-D, and as its shape
only, with no data, for 4 or more axes. -/
theorem preview_truncation (d : Dset) (hlen : d.data.length = d.shape.prod)
    (hsh : d.shape ≠ []) (hpos : 0 < dsize d) :
    (dsize d ≤ 20 →
      (reportDset true d).preview = some (.data d.data)) ∧
    (20 < dsize d →
      (∀ n, d.shape = [n] →
        (reportDset true d).preview = some (.data (d.data.take 10)) ∧
        (d.data.take 10).length = 10) ∧
      (∀ r c, d.shape = [r, c] →
        (reportDset true d).preview =
          some (.data (((chunkList c d.data).take 3).flatten))) ∧
      (∀ a b c, d.shape = [a, b, c] →
        (reportDset true d).preview =
          some (.data ((((chunkList (b * c) d.data).take 2).map
            (fun blk => ((chunkList c blk).take 2).flatten)).flatten))) ∧
      (4 ≤ d.shape.length →
        (reportDset true d).preview = some (.shapeOnly d.shape))) := by
  obtain ⟨sh, dt, nm, data⟩ := d
  have hprev : (reportDset true ⟨sh, dt, nm, data⟩).preview =
      some (previewArr ⟨sh, dt, nm, data⟩) := by
    simp [reportDset, hsh, hpos]
  constructor
  · intro hle
    rw [hprev, previewArr, if_pos hle]
  · intro hgt
    have hnotle : ¬ dsize ⟨sh, dt, nm, data⟩ ≤ 20 := by omega
    refine ⟨?_, ?_, ?_, ?_⟩
    · intro n hshape
      have hshb : sh = [n] := hshape
      subst hshb
      have hn : 20 < n := by
        have hd : dsize ⟨[n], dt, nm, data⟩ = n := by simp [dsize]
        omega
      constructor
      · rw [hprev, previewArr, if_neg hnotle]
      · have hlenb : data.length = n := by
          have : data.length = List.prod [n] := hlen
          simpa using this
        rw [List.length_take, hlenb]
        omega
    · intro r c hshape
      have hshb : sh = [r, c] := hshape
      subst hshb
      have harr : previewArr ⟨[r, c], dt, nm, data⟩ =
          .data (data.take (min 3 r * c)) := by
        rw [previewArr, if_neg hnotle]
      rw [hprev, harr, chunk_join_take 3 c data]
      have hlen2 : data.length = r * c := by
        have : data.length = List.prod [r, c] := hlen
        simpa using this
      congr 2
      by_cases hr : 3 ≤ r
      · rw [Nat.min_eq_left hr]
      · have hmin : min 3 r = r := by omega
        rw [hmin]
        rw [List.take_of_length_le (by omega),
          List.take_of_length_le (by
            rw [hlen2]
            exact Nat.mul_le_mul_right c (by omega))]
    · intro a b c hshape
      have hshb : sh = [a, b, c] := hshape
      subst hshb
      have harr : previewArr ⟨[a, b, c], dt, nm, data⟩ =
          .data ((List.range (min 2 a)).flatMap
            (fun i => (data.drop (i * (b * c))).take (min 2 b * c))) := by
        rw [previewArr, if_neg hnotle]
      rw [hprev, harr]
      have hsz : dsize ⟨[a, b, c], dt, nm, data⟩ = a * (b * c) := by
        simp only [dsize, List.prod_cons, List.prod_nil, Nat.mul_one]
      have hbc : 0 < b * c := by
        rcases Nat.eq_zero_or_pos (b * c) with h0 | h1
        · rw [h0, Nat.mul_zero] at hsz; omega
        · exact h1
      have hlen3 : data.length = a * (b * c) := by
        have : data.length = List.prod [a, b, c] := hlen
        simpa [Nat.mul_assoc] using this
      refine congrArg some (congrArg Preview.data ?_)
      have hinner : ((chunkList (b * c) data).take 2).map
            (fun blk => ((chunkList c blk).take 2).flatten) =
          ((chunkList (b * c) data).take 2).map
            (fun blk => blk.take (2 * c)) := by
        apply List.map_congr_left
        intro blk _
        rw [chunk_join_take 2 c blk]
      rw [hinner, chunk_take_map_join 2 (b * c) (2 * c) data hbc]
      have hminmul : min (2 * c) (b * c) = min 2 b * c := by
        rcases Nat.le_total 2 b with h2 | h2
        · rw [Nat.min_eq_left (Nat.mul_le_mul_right c h2), Nat.min_eq_left h2]
        · rw [Nat.min_eq_right (Nat.mul_le_mul_right c h2), Nat.min_eq_right h2]
      simp only [hminmul]
      by_cases ha : 2 ≤ a
      · rw [Nat.min_eq_left ha]
      · have hapos : 0 < a := by
          rcases Nat.eq_zero_or_pos a with h0 | h1
          · subst h0
            rw [Nat.zero_mul] at hsz
            omega
          · exact h1
        have ha1 : a = 1 := by omega
        subst ha1
        have hdrop : data.drop (1 * (b * c)) = [] := by
          rw [← hlen3]
          exact List.drop_length data
        rw [show List.range (min 2 1) = [0] from rfl,
          show List.range 2 = [0, 1] from rfl]
        simp [List.flatMap_cons, hdrop]
        omega
    · intro hlen4
      match sh, hsh, hlen4, hnotle, hprev, hlen with
      | s1 :: s2 :: s3 :: s4 :: srest, hsh, hlen4, hnotle, hprev, hlen =>
          rw [hprev, previewArr, if_neg hnotle]
      | [s1], _, hlen4, _, _, _ => simp at hlen4
      | [s1, s2], _, hlen4, _, _, _ => simp at hlen4
      | [s1, s2, s3], _, hlen4, _, _, _ => simp at hlen4
      | [], hsh, _, _, _, _ => exact absurd rfl hsh

/-- Witness for C4 at a 1-D array of 25 elements. -/
theorem preview_truncation_witness :
    (⟨[25], "f8", true, (List.range 25).map (fun n => (n : Rat))⟩ : Dset).data.length =
      (⟨[25], "f8", true, (List.range 25).map (fun n => (n : Rat))⟩ : Dset).shape.prod ∧
    (⟨[25], "f8", true, (List.range 25).map (fun n => (n : Rat))⟩ : Dset).shape ≠ [] ∧
    0 < dsize ⟨[25], "f8", true, (List.range 25).map (fun n => (n : Rat))⟩ ∧
    ((20 < dsize ⟨[25], "f8", true, (List.range 25).map (fun n => (n : Rat))⟩ →
      (∀ n, (⟨[25], "f8", true, (List.range 25).map (fun n => (n : Rat))⟩ : Dset).shape = [n] →
        (reportDset true ⟨[25], "f8", true, (List.range 25).map (fun n => (n : Rat))⟩).preview =
          some (.data ((⟨[25], "f8", true, (List.range 25).map (fun n => (n : Rat))⟩ : Dset).data.take 10)) ∧
        ((⟨[25], "f8", true, (List.range 25).map (fun n => (n : Rat))⟩ : Dset).data.take 10).length = 10) ∧
      (∀ r c, (⟨[25], "f8", true, (List.range 25).map (fun n => (n : Rat))⟩ : Dset).shape = [r, c] →
        (reportDset true ⟨[25], "f8", true, (List.range 25).map (fun n => (n : Rat))⟩).preview =
          some (.data (((chunkList c (⟨[25], "f8", true, (List.range 25).map (fun n => (n : Rat))⟩ : Dset).data).take 3).flatten))) ∧
      (∀ a b c, (⟨[25], "f8", true, (List.range 25).map (fun n => (n : Rat))⟩ : Dset).shape = [a, b, c] →
        (reportDset true ⟨[25], "f8", true, (List.range 25).map (fun n => (n : Rat))⟩).preview =
          some (.data ((((chunkList (b * c) (⟨[25], "f8", true, (List.range 25).map (fun n => (n : Rat))⟩ : Dset).data).take 2).map
            (fun blk => ((chunkList c blk).take 2).flatten)).flatten))) ∧
      (4 ≤ (⟨[25], "f8", true, (List.range 25).map (fun n => (n : Rat))⟩ : Dset).shape.length →
        (reportDset true ⟨[25], "f8", true, (List.range 25).map (fun n => (n : Rat))⟩).preview =
          some (.shapeOnly (⟨[25], "f8", true, (List.range 25).map (fun n => (n : Rat))⟩ : Dset).shape)))) :=
  ⟨by decide, by decide, by decide,
    (preview_truncation ⟨[25], "f8", true, (List.range 25).map (fun n => (n : Rat))⟩
      (by decide) (by decide) (by decide)).2⟩

/-- C7: a path that does not open propagates the untranslated open failure
out of all three operations; for the comparison, a bad path anywhere in the
list aborts the whole run with that failure once the files before it load. -/
theorem open_failure_propagates (fs : FS) (ro : RO) (p : String)
    (hmiss : lookupFS fs p = none) :
    (∀ verbose, (explore_hdf5 fs ro p verbose).1 = .error (.fileAccess p)) ∧
    (∀ dp, (extract_data fs ro p dp).result = .error (.fileAccess p)) ∧
    (∀ pre post, (∀ q ∈ pre, ∃ cs, lookupFS fs q = some (.group cs)) →
      (∀ q, ro q = true) →
      (compare_episodes fs ro (pre ++ p :: post)).1 =
        .error (.fileAccess p)) := by
  refine ⟨?_, ?_, ?_⟩
  · intro verbose
    simp [explore_hdf5, hmiss]
  · intro dp
    simp [extract_data, hmiss]
  · intro pre post hpre hro
    have hload : ∀ acc, (loadFiles fs ro acc (pre ++ p :: post)).1 =
        .error (.fileAccess p) := by
      induction pre with
      | nil =>
          intro acc
          simp [loadFiles, hmiss]
      | cons q pre2 ih =>
          intro acc
          obtain ⟨cs, hq⟩ := hpre q (by simp)
          have hcoll := collectE_ok ro hro cs "" []
          simp only [List.cons_append, loadFiles, hq, collectNode, hcoll]
          exact ih (fun r hr => hpre r (by simp [hr])) _
    rcases hld : loadFiles fs ro [] (pre ++ p :: post) with ⟨r, tr⟩
    have := hload []
    rw [hld] at this
    simp only at this
    subst this
    simp [compare_episodes, hld]

theorem analyzeE_reads (ro : RO) (verbose : Bool) :
    ∀ (cs : Entries) (pre : String),
    ∀ ev ∈ (analyzeEntries ro verbose pre cs).2.1, ∃ n, ev = .readEv n := by
  intro cs
  match cs with
  | .nil => intro pre ev hev; simp [analyzeEntries] at hev
  | .cons k c rest =>
      intro pre ev hev
      cases c with
      | dataset d =>
          simp only [analyzeEntries, analyzeNode] at hev
          by_cases hro : ro (childName pre k) = true
          · rw [if_pos hro] at hev
            rcases hres : analyzeEntries ro verbose pre rest with ⟨r2, tr2, rs2⟩
            rw [hres] at hev
            simp only [List.cons_append, List.nil_append, List.mem_cons] at hev
            rcases hev with hev | hev
            · exact ⟨childName pre k, hev⟩
            · have := analyzeE_reads ro verbose rest pre ev
              rw [hres] at this
              exact this hev
          · rw [if_neg hro] at hev
            simp at hev
      | group cs2 =>
          simp only [analyzeEntries, analyzeNode] at hev
          rcases hcs2 : analyzeEntries ro verbose (childName pre k) cs2
            with ⟨r1, tr1, rs1⟩
          rw [hcs2] at hev
          cases r1 with
          | ok u =>
              rcases hres : analyzeEntries ro verbose pre rest with ⟨r2, tr2, rs2⟩
              rw [hres] at hev
              simp only [List.mem_append] at hev
              rcases hev with hev | hev
              · have := analyzeE_reads ro verbose cs2 (childName pre k) ev
                rw [hcs2] at this
                exact this hev
              · have := analyzeE_reads ro verbose rest pre ev
                rw [hres] at this
                exact this hev
          | error e =>
              simp only at hev
              have := analyzeE_reads ro verbose cs2 (childName pre k) ev
              rw [hcs2] at this
              exact this hev

theorem collectE_reads (ro : RO) :
    ∀ (cs : Entries) (pre : String) (acc : List (String × Dset)),
    ∀ ev ∈ (collectEntries ro pre acc cs).2, ∃ n, ev = .readEv n := by
  intro cs
  match cs with
  | .nil => intro pre acc ev hev; simp [collectEntries] at hev
  | .cons k c rest =>
      intro pre acc ev hev
      cases c with
      | dataset d =>
          by_cases hro : ro (childName pre k) = true
          · rcases hres : collectEntries ro pre
                (dictInsert acc (childName pre k) d) rest with ⟨r2, tr2⟩
            simp only [collectEntries, collectNode, hro, if_true, hres,
              List.cons_append, List.nil_append, List.mem_cons] at hev
            rcases hev with hev | hev
            · exact ⟨childName pre k, hev⟩
            · have := collectE_reads ro rest pre
                (dictInsert acc (childName pre k) d) ev
              rw [hres] at this
              exact this hev
          · simp only [collectEntries, collectNode, hro, if_false,
              Bool.false_eq_true, List.not_mem_nil] at hev
      | group cs2 =>
          rcases hcs2 : collectEntries ro (childName pre k) acc cs2
            with ⟨r1, tr1⟩
          cases r1 with
          | ok acc2 =>
              rcases hres : collectEntries ro pre acc2 rest with ⟨r2, tr2⟩
              simp only [collectEntries, collectNode, hcs2, hres,
                List.mem_append] at hev
              rcases hev with hev | hev
              · have := collectE_reads ro cs2 (childName pre k) acc ev
                rw [hcs2] at this
                exact this hev
              · have := collectE_reads ro rest pre acc2 ev
                rw [hres] at this
                exact this hev
          | error e =>
              simp only [collectEntries, collectNode, hcs2] at hev
              have := collectE_reads ro cs2 (childName pre k) acc ev
              rw [hcs2] at this
              exact this hev

theorem count_zero_of_reads {tr : List Ev}
    (h : ∀ ev ∈ tr, ∃ n, ev = .readEv n) (q : String) :
    tr.count (.opened q) = 0 ∧ tr.count (.closed q) = 0 := by
  constructor
  · rw [List.count_eq_zero]
    intro hmem
    obtain ⟨n, hn⟩ := h _ hmem
    cases hn
  · rw [List.count_eq_zero]
    intro hmem
    obtain ⟨n, hn⟩ := h _ hmem
    cases hn

theorem analyzeN_reads (ro : RO) (verbose : Bool) (name : String) (t : Node) :
    ∀ ev ∈ (analyzeNode ro verbose name t).2.1, ∃ n, ev = .readEv n := by
  cases t with
  | group cs => exact analyzeE_reads ro verbose cs name
  | dataset d =>
      intro ev hev
      simp only [analyzeNode] at hev
      by_cases hro : ro name = true
      · rw [if_pos hro] at hev
        simp only [List.mem_singleton] at hev
        exact ⟨name, hev⟩
      · rw [if_neg hro] at hev
        simp at hev

theorem collectN_reads (ro : RO) (name : String)
    (acc : List (String × Dset)) (t : Node) :
    ∀ ev ∈ (collectNode ro name acc t).2, ∃ n, ev = .readEv n := by
  cases t with
  | group cs => exact collectE_reads ro cs name acc
  | dataset d =>
      intro ev hev
      simp only [collectNode] at hev
      by_cases hro : ro name = true
      · rw [if_pos hro] at hev
        simp only [List.mem_singleton] at hev
        exact ⟨name, hev⟩
      · rw [if_neg hro] at hev
        simp at hev

theorem loadFiles_balanced (fs : FS) (ro : RO) :
    ∀ (fps : List String) (acc : List (String × List (String × Dset))),
    balanced (loadFiles fs ro acc fps).2 := by
  intro fps
  induction fps with
  | nil => intro acc q; simp [loadFiles]
  | cons fp rest ih =>
      intro acc q
      simp only [loadFiles]
      cases hfp : lookupFS fs fp with
      | none => simp
      | some t =>
          rcases hcoll : collectNode ro "" [] t with ⟨r, tr⟩
          have hreads := collectN_reads ro "" [] t
          rw [hcoll] at hreads
          have hreads2 : ∀ ev ∈ tr, ∃ n, ev = Ev.readEv n := hreads
          obtain ⟨hop, hcl⟩ := count_zero_of_reads hreads2 q
          cases r with
          | ok m =>
              rcases hld : loadFiles fs ro (dictInsert acc fp m) rest
                with ⟨r2, tr2⟩
              have hb := ih (dictInsert acc fp m) q
              rw [hld] at hb
              have hb2 : tr2.count (.opened q) = tr2.count (.closed q) := hb
              simp [hcoll, hld, List.count_cons, List.count_append, hop, hcl,
                List.count_singleton, hb2]
          | error e =>
              simp [hcoll, List.count_cons, List.count_append, hop, hcl,
                List.count_singleton]

/-- C8: every container handle an operation opens is closed by the end of
that operation, on every exit path and for every read oracle, for all three
operations. -/
theorem handles_balanced (fs : FS) (ro : RO) :
    (∀ p verbose, balanced (explore_hdf5 fs ro p verbose).2.1) ∧
    (∀ p dp, balanced (extract_data fs ro p dp).trace) ∧
    (∀ fps, balanced (compare_episodes fs ro fps).2) := by
  refine ⟨?_, ?_, ?_⟩
  · intro p verbose q
    simp only [explore_hdf5]
    cases hfp : lookupFS fs p with
    | none => simp
    | some t =>
        rcases han : analyzeNode ro verbose "" t with ⟨r, tr, rs⟩
        have hreads := analyzeN_reads ro verbose "" t
        rw [han] at hreads
        have hreads2 : ∀ ev ∈ tr, ∃ n, ev = Ev.readEv n := hreads
        obtain ⟨hop, hcl⟩ := count_zero_of_reads hreads2 q
        simp [han, List.count_cons, List.count_append, hop, hcl,
          List.count_singleton]
  · intro p dp q
    cases hfp : lookupFS fs p with
    | none => simp [extract_data, hfp, balanced]
    | some t =>
        by_cases htr : truthyStr dp = true
        · cases hres : resolvePath t (dp.getD "") with
          | none => simp [extract_data, hfp, htr, hres, List.count_cons]
          | some n =>
              cases n with
              | dataset d =>
                  by_cases hro : ro (dp.getD "") = true
                  · simp [extract_data, hfp, htr, hres, hro, List.count_cons]
                  · simp [extract_data, hfp, htr, hres, hro, List.count_cons]
              | group cs2 =>
                  simp [extract_data, hfp, htr, hres, List.count_cons]
        · rcases hcoll : collectNode ro "" [] t with ⟨r, tr⟩
          have hreads := collectN_reads ro "" [] t
          rw [hcoll] at hreads
          have hreads2 : ∀ ev ∈ tr, ∃ n, ev = Ev.readEv n := hreads
          obtain ⟨hop, hcl⟩ := count_zero_of_reads hreads2 q
          cases r with
          | ok m =>
              simp [extract_data, hfp, htr, hcoll, List.count_cons,
                List.count_append, hop, hcl, List.count_singleton]
          | error e =>
              simp [extract_data, hfp, htr, hcoll, List.count_cons,
                List.count_append, hop, hcl, List.count_singleton]
  · intro fps q
    simp only [compare_episodes]
    rcases hld : loadFiles fs ro [] fps with ⟨r, tr⟩
    have hb := loadFiles_balanced fs ro fps [] q
    rw [hld] at hb
    cases r with
    | ok ad => exact hb
    | error e => exact hb

/-- Witness for C7 at a concrete filesystem missing the requested path. -/
theorem open_failure_propagates_witness :
    lookupFS fsW "missing.h5" = none ∧
    ((∀ verbose, (explore_hdf5 fsW roW "missing.h5" verbose).1 =
        .error (.fileAccess "missing.h5")) ∧
     (∀ dp, (extract_data fsW roW "missing.h5" dp).result =
        .error (.fileAccess "missing.h5")) ∧
     (∀ pre post, (∀ q ∈ pre, ∃ cs, lookupFS fsW q = some (.group cs)) →
        (∀ q, roW q = true) →
        (compare_episodes fsW roW (pre ++ "missing.h5" :: post)).1 =
          .error (.fileAccess "missing.h5"))) :=
  ⟨by decide, open_failure_propagates fsW roW "missing.h5" (by decide)⟩

/-- Counterexample to C6 as stated: with `--extract` present but bound to
the empty string, the dispatcher's `elif args.extract:` test is falsy, so
the program runs Explore rather than ExtractDataset. -/
theorem main_empty_extract_counterexample :
    (⟨"a.h5", false, some "", none, none⟩ : Args).extract = some "" ∧
    (mainRun fsW roW ⟨"a.h5", false, some "", none, none⟩).2 =
      [.exploredOp "a.h5" false] ∧
    (∀ ops2, (mainRun fsW roW ⟨"a.h5", false, some "", none, none⟩).2 ≠
      Op.extractedOp "a.h5" (some "") :: ops2) := by
  refine ⟨rfl, by decide, ?_⟩
  intro ops2
  intro h
  rw [show (mainRun fsW roW ⟨"a.h5", false, some "", none, none⟩).2 =
    [.exploredOp "a.h5" false] from by decide] at h
  cases h

/-- C6 (amended: an empty-string `--extract` or `--save` value counts as not
given, by Python truthiness): `--compare` takes precedence and ignores the
other flags; otherwise a truthy `--extract` runs ExtractDataset, followed by
SaveExtracted exactly when `--save` is truthy and extraction returned data;
otherwise Explore runs with the verbose flag. -/
theorem main_dispatch (fs : FS) (ro : RO) (a : Args) :
    (truthyList a.compare = true →
      (mainRun fs ro a).2 = [.comparedOp (a.compare.getD [])] ∧
      (mainRun fs ro a).1 =
        (compare_episodes fs ro (a.compare.getD [])).1.map (fun _ => ())) ∧
    (truthyList a.compare = false → truthyStr a.extract = true →
      ((∃ v, (extract_data fs ro a.file a.extract).result = .ok (some v)) →
        truthyStr a.save = true →
        (mainRun fs ro a).2 =
          [.extractedOp a.file a.extract, .savedOp (a.save.getD "")]) ∧
      ((∃ v, (extract_data fs ro a.file a.extract).result = .ok (some v)) →
        truthyStr a.save = false →
        (mainRun fs ro a).2 = [.extractedOp a.file a.extract]) ∧
      ((extract_data fs ro a.file a.extract).result = .ok none →
        (mainRun fs ro a).2 = [.extractedOp a.file a.extract]) ∧
      (∀ e, (extract_data fs ro a.file a.extract).result = .error e →
        (mainRun fs ro a).2 = [.extractedOp a.file a.extract] ∧
        (mainRun fs ro a).1 = .error e)) ∧
    (truthyList a.compare = false → truthyStr a.extract = false →
      (mainRun fs ro a).2 = [.exploredOp a.file a.verbose] ∧
      (mainRun fs ro a).1 = (explore_hdf5 fs ro a.file a.verbose).1) := by
  refine ⟨?_, ?_, ?_⟩
  · intro hcmp
    constructor
    · simp [mainRun, hcmp]
    · simp [mainRun, hcmp]
  · intro hcmp hext
    refine ⟨?_, ?_, ?_, ?_⟩
    · rintro ⟨v, hv⟩ hsave
      simp [mainRun, hcmp, hext, hv, hsave]
    · rintro ⟨v, hv⟩ hsave
      simp [mainRun, hcmp, hext, hv, hsave]
    · intro hv
      simp [mainRun, hcmp, hext, hv]
    · intro e hv
      constructor
      · simp [mainRun, hcmp, hext, hv]
      · simp [mainRun, hcmp, hext, hv]
  · intro hcmp hext
    constructor
    · simp [mainRun, hcmp, hext]
    · simp [mainRun, hcmp, hext]

/-- Witness for C6: the amended dispatch applied to a concrete extract-and-
save invocation. -/
theorem main_dispatch_witness :
    truthyList (⟨"a.h5", false, some "g/y", none, some "out.npy"⟩ : Args).compare = false ∧
    truthyStr (⟨"a.h5", false, some "g/y", none, some "out.npy"⟩ : Args).extract = true ∧
    (((∃ v, (extract_data fsW roW "a.h5" (some "g/y")).result = .ok (some v)) →
        truthyStr (⟨"a.h5", false, some "g/y", none, some "out.npy"⟩ : Args).save = true →
        (mainRun fsW roW ⟨"a.h5", false, some "g/y", none, some "out.npy"⟩).2 =
          [.extractedOp "a.h5" (some "g/y"), .savedOp "out.npy"]) ∧
      ((∃ v, (extract_data fsW roW "a.h5" (some "g/y")).result = .ok (some v)) →
        truthyStr (⟨"a.h5", false, some "g/y", none, some "out.npy"⟩ : Args).save = false →
        (mainRun fsW roW ⟨"a.h5", false, some "g/y", none, some "out.npy"⟩).2 =
          [.extractedOp "a.h5" (some "g/y")]) ∧
      ((extract_data fsW roW "a.h5" (some "g/y")).result = .ok none →
        (mainRun fsW roW ⟨"a.h5", false, some "g/y", none, some "out.npy"⟩).2 =
          [.extractedOp "a.h5" (some "g/y")]) ∧
      (∀ e, (extract_data fsW roW "a.h5" (some "g/y")).result = .error e →
        (mainRun fsW roW ⟨"a.h5", false, some "g/y", none, some "out.npy"⟩).2 =
          [.extractedOp "a.h5" (some "g/y")] ∧
        (mainRun fsW roW ⟨"a.h5", false, some "g/y", none, some "out.npy"⟩).1 =
          .error e)) :=
  ⟨by decide, by decide,
    (main_dispatch fsW roW ⟨"a.h5", false, some "g/y", none, some "out.npy"⟩).2.1
      (by decide) (by decide)⟩

theorem lookupD_dictInsert {α : Type} (m : List (String × α)) (k q : String)
    (v : α) :
    lookupD (dictInsert m k v) q = if k = q then some v else lookupD m q := by
  induction m with
  | nil => simp [dictInsert, lookupD]
  | cons kv rest ih =>
      match kv with
      | (k2, v2) =>
          by_cases hk : k2 = k
          · subst hk
            simp only [dictInsert, if_pos rfl, lookupD]
            by_cases hq : k2 = q
            · simp [hq]
            · simp [hq]
          · simp only [dictInsert, if_neg hk, lookupD]
            by_cases hq : k2 = q
            · subst hq
              rw [if_pos rfl, if_neg (fun h : k = k2 => hk h.symm), if_pos rfl]
            · rw [if_neg hq, ih, if_neg hq]

theorem map_fst_dictInsert {α : Type} (m : List (String × α)) (k : String)
    (v : α) :
    (dictInsert m k v).map Prod.fst = setInsert (m.map Prod.fst) k := by
  induction m with
  | nil => simp [dictInsert, setInsert]
  | cons kv rest ih =>
      match kv with
      | (k2, v2) =>
          by_cases hk : k2 = k
          · subst hk
            simp [dictInsert, setInsert]
          · simp only [dictInsert, if_neg hk, List.map_cons, ih, setInsert]
            by_cases hmem : k ∈ rest.map Prod.fst
            · rw [if_pos hmem, if_pos (List.mem_cons_of_mem _ hmem)]
            · have hnot : k ∉ ((k2, v2).1 :: rest.map Prod.fst) := by
                intro hcontra
                rcases List.mem_cons.mp hcontra with h | h
                · exact hk h.symm
                · exact hmem h
              rw [if_neg hmem, if_neg hnot]
              simp

theorem mem_dictInsert {α : Type} (m : List (String × α)) (k : String)
    (v : α) (x : String × α) :
    x ∈ dictInsert m k v → x ∈ m ∨ x = (k, v) := by
  induction m with
  | nil => simp [dictInsert]
  | cons kv rest ih =>
      match kv with
      | (k2, v2) =>
          by_cases hk : k2 = k
          · subst hk
            intro hx
            simp only [dictInsert, if_pos rfl] at hx
            rcases List.mem_cons.mp hx with h | h
            · exact Or.inr h
            · exact Or.inl (List.mem_cons_of_mem _ h)
          · intro hx
            simp only [dictInsert, if_neg hk] at hx
            rcases List.mem_cons.mp hx with h | h
            · exact Or.inl (h ▸ List.mem_cons_self _ _)
            · rcases ih h with h2 | h2
              · exact Or.inl (List.mem_cons_of_mem _ h2)
              · exact Or.inr h2

theorem mem_setInsert (s : List String) (k q : String) :
    q ∈ setInsert s k ↔ q ∈ s ∨ q = k := by
  by_cases hmem : k ∈ s
  · simp only [setInsert, if_pos hmem]
    constructor
    · exact fun h => Or.inl h
    · rintro (h | h)
      · exact h
      · exact h ▸ hmem
  · simp [setInsert, if_neg hmem]

theorem nodup_setInsert (s : List String) (k : String) (h : s.Nodup) :
    (setInsert s k).Nodup := by
  by_cases hmem : k ∈ s
  · simpa [setInsert, if_pos hmem] using h
  · rw [setInsert, if_neg hmem]
    simpa [List.nodup_append] using ⟨h, fun hk => hmem hk⟩

theorem mem_foldl_setInsert :
    ∀ (l : List String) (s : List String) (q : String),
    q ∈ l.foldl setInsert s ↔ q ∈ s ∨ q ∈ l := by
  intro l
  induction l with
  | nil => simp
  | cons k rest ih =>
      intro s q
      simp only [List.foldl_cons, ih, mem_setInsert, List.mem_cons]
      constructor
      · rintro ((h | h) | h)
        · exact Or.inl h
        · exact Or.inr (Or.inl h)
        · exact Or.inr (Or.inr h)
      · rintro (h | h | h)
        · exact Or.inl (Or.inl h)
        · exact Or.inl (Or.inr h)
        · exact Or.inr h

theorem nodup_foldl_setInsert :
    ∀ (l : List String) (s : List String), s.Nodup →
    (l.foldl setInsert s).Nodup := by
  intro l
  induction l with
  | nil => exact fun s h => h
  | cons k rest ih =>
      intro s h
      exact ih (setInsert s k) (nodup_setInsert s k h)

theorem lookupD_eq_some_iff_mem {α : Type} :
    ∀ (m : List (String × α)), (m.map Prod.fst).Nodup → ∀ (q : String) (v : α),
    (lookupD m q = some v ↔ (q, v) ∈ m) := by
  intro m
  induction m with
  | nil => simp [lookupD]
  | cons kv rest ih =>
      intro hnodup q v
      match kv with
      | (k2, v2) =>
          simp only [List.map_cons, List.nodup_cons] at hnodup
          simp only [lookupD, List.mem_cons]
          by_cases hq : k2 = q
          · subst hq
            rw [if_pos rfl]
            constructor
            · intro h
              cases h
              exact Or.inl rfl
            · rintro (h | h)
              · rw [Prod.mk.injEq] at h
                rw [h.2]
              · exfalso
                exact hnodup.1 (by
                  simp only [List.mem_map]
                  exact ⟨(k2, v), h, rfl⟩)
          · rw [if_neg hq, ih hnodup.2 q v]
            constructor
            · exact fun h => Or.inr h
            · rintro (h | h)
              · rw [Prod.mk.injEq] at h
                exact absurd h.1.symm hq
              · exact h

theorem loadFiles_ok (fs : FS) (ro : RO) (hro : ∀ q, ro q = true) :
    ∀ (fps : List String) (acc : List (String × List (String × Dset))),
    (∀ fp ∈ fps, ∃ cs, lookupFS fs fp = some (.group cs)) →
    loadFiles fs ro acc fps =
      (.ok (fps.foldl (fun ad fp => dictInsert ad fp (dictOf fs fp)) acc),
       fps.flatMap (fun fp => .opened fp :: (readsOf fs fp ++ [.closed fp]))) := by
  intro fps
  induction fps with
  | nil => intro acc _; simp [loadFiles]
  | cons fp rest ih =>
      intro acc hfps
      obtain ⟨cs, hfp⟩ := hfps fp (by simp)
      have hd : dictOf fs fp =
          (namedDsets "" cs).foldl (fun m kv => dictInsert m kv.1 kv.2) [] := by
        simp [dictOf, hfp]
      have hr : readsOf fs fp =
          (namedDsets "" cs).map (fun kv => Ev.readEv kv.1) := by
        simp [readsOf, hfp]
      have hrec := ih (dictInsert acc fp
          ((namedDsets "" cs).foldl (fun m kv => dictInsert m kv.1 kv.2) []))
        (fun q hq => hfps q (by simp [hq]))
      simp [loadFiles, hfp, collectNode, collectE_ok ro hro cs "" [],
        hrec, hd, hr]

theorem foldl_setInsert_keys {α : Type} (m : List (String × α))
    (acc : List String) :
    m.foldl (fun a kv => setInsert a kv.1) acc =
      (m.map Prod.fst).foldl setInsert acc := by
  rw [List.foldl_map]

theorem mem_allKeys_aux :
    ∀ (ad : List (String × List (String × Dset))) (s : List String)
    (q : String),
    q ∈ ad.foldl (fun acc fd => fd.2.foldl (fun a kv => setInsert a kv.1) acc) s
      ↔ q ∈ s ∨ ∃ fd ∈ ad, q ∈ fd.2.map Prod.fst := by
  intro ad
  induction ad with
  | nil => simp
  | cons fd rest ih =>
      intro s q
      rw [List.foldl_cons, ih]
      rw [foldl_setInsert_keys fd.2 s, mem_foldl_setInsert]
      constructor
      · rintro ((h | h) | ⟨fd2, h1, h2⟩)
        · exact Or.inl h
        · exact Or.inr ⟨fd, List.mem_cons_self _ _, h⟩
        · exact Or.inr ⟨fd2, List.mem_cons_of_mem _ h1, h2⟩
      · rintro (h | ⟨fd2, h1, h2⟩)
        · exact Or.inl (Or.inl h)
        · rcases List.mem_cons.mp h1 with h3 | h3
          · exact Or.inl (Or.inr (h3 ▸ h2))
          · exact Or.inr ⟨fd2, h3, h2⟩

theorem mem_allKeys (ad : List (String × List (String × Dset))) (q : String) :
    q ∈ allKeys ad ↔ ∃ fd ∈ ad, q ∈ fd.2.map Prod.fst := by
  rw [allKeys, mem_allKeys_aux]
  simp

theorem allKeys_nodup_aux :
    ∀ (ad : List (String × List (String × Dset))) (s : List String),
    s.Nodup →
    (ad.foldl (fun acc fd => fd.2.foldl (fun a kv => setInsert a kv.1) acc)
      s).Nodup := by
  intro ad
  induction ad with
  | nil => exact fun s h => h
  | cons fd rest ih =>
      intro s h
      simp only [List.foldl_cons]
      apply ih
      rw [foldl_setInsert_keys]
      exact nodup_foldl_setInsert _ s h

theorem allKeys_nodup (ad : List (String × List (String × Dset))) :
    (allKeys ad).Nodup :=
  allKeys_nodup_aux ad [] List.nodup_nil

theorem map_fst_foldl_dictInsert {α : Type} (v : String → α) :
    ∀ (fps : List String) (acc : List (String × α)),
    ((fps.foldl (fun ad fp => dictInsert ad fp (v fp)) acc).map Prod.fst) =
      fps.foldl setInsert (acc.map Prod.fst) := by
  intro fps
  induction fps with
  | nil => intro acc; rfl
  | cons fp rest ih =>
      intro acc
      simp only [List.foldl_cons, ih, map_fst_dictInsert]

theorem lookupD_foldl_dictInsert {α : Type} (v : String → α) :
    ∀ (fps : List String) (acc : List (String × α)) (q : String),
    lookupD (fps.foldl (fun ad fp => dictInsert ad fp (v fp)) acc) q =
      if q ∈ fps then some (v q) else lookupD acc q := by
  intro fps
  induction fps with
  | nil => intro acc q; simp
  | cons fp rest ih =>
      intro acc q
      simp only [List.foldl_cons, ih, lookupD_dictInsert, List.mem_cons]
      by_cases hq : q ∈ rest
      · rw [if_pos hq, if_pos (Or.inr hq)]
      · rw [if_neg hq]
        by_cases hfq : fp = q
        · subst hfq
          rw [if_pos rfl, if_pos (Or.inl rfl)]
        · rw [if_neg hfq, if_neg (by
            rintro (h | h)
            · exact hfq h.symm
            · exact hq h)]

theorem count_readsOf (fs : FS) (fp q : String) :
    (readsOf fs fp).count (Ev.opened q) = 0 := by
  rw [List.count_eq_zero]
  intro hmem
  rw [readsOf] at hmem
  rcases h : lookupFS fs fp with _ | t
  · rw [h] at hmem
    simp at hmem
  · rw [h] at hmem
    cases t with
    | group cs => simp at hmem
    | dataset d => simp at hmem

theorem count_opened_flatMap (fs : FS) :
    ∀ (fps : List String) (fp : String),
    (fps.flatMap (fun fp2 => Ev.opened fp2 ::
      (readsOf fs fp2 ++ [Ev.closed fp2]))).count (Ev.opened fp) =
      fps.count fp := by
  intro fps
  induction fps with
  | nil => intro fp; simp
  | cons fp2 rest ih =>
      intro fp
      by_cases h : fp = fp2
      · subst h
        simp [List.count_cons, List.count_append, count_readsOf, ih]
      · simp [List.count_cons, List.count_append, count_readsOf, ih, h]

/-- C10: when the same container path occurs several times in the compare
list, the file is loaded once per occurrence, but `all_data` is keyed by the
path string, so every emitted row reports each distinct file exactly once,
in first-occurrence order. -/
theorem compare_duplicate_paths (fs : FS) (ro : RO) (fps : List String)
    (hro : ∀ q, ro q = true)
    (hfps : ∀ fp ∈ fps, ∃ cs, lookupFS fs fp = some (.group cs)) :
    ∃ rows, (compare_episodes fs ro fps).1 = .ok rows ∧
      (∀ row ∈ rows, row.cells.map Prod.fst = firstDedup fps) ∧
      (∀ fp, (compare_episodes fs ro fps).2.count (.opened fp) =
        fps.count fp) := by
  have hload := loadFiles_ok fs ro hro fps [] hfps
  refine ⟨((allKeys (fps.foldl (fun ad fp => dictInsert ad fp (dictOf fs fp))
      [])).insertionSort (· ≤ ·)).map
        (fun q => ⟨q, (fps.foldl (fun ad fp => dictInsert ad fp (dictOf fs fp))
          []).map (fun fd => (fd.1, cellOf fd.2 q))⟩), ?_, ?_, ?_⟩
  · simp [compare_episodes, hload]
  · intro row hrow
    simp only [List.mem_map] at hrow
    obtain ⟨q, _, hq⟩ := hrow
    rw [← hq]
    simp only [List.map_map]
    have : ((fps.foldl (fun ad fp => dictInsert ad fp (dictOf fs fp))
        []).map (Prod.fst ∘ fun fd => (fd.1, cellOf fd.2 q))) =
        ((fps.foldl (fun ad fp => dictInsert ad fp (dictOf fs fp))
        []).map Prod.fst) := by
      apply List.map_congr_left
      intro fd _
      rfl
    rw [this, map_fst_foldl_dictInsert (dictOf fs) fps []]
    rfl
  · intro fp
    rw [show (compare_episodes fs ro fps).2 =
        fps.flatMap (fun fp2 => .opened fp2 ::
          (readsOf fs fp2 ++ [.closed fp2])) from by
      simp [compare_episodes, hload]]
    exact count_opened_flatMap fs fps fp

theorem lookupFS_scrub (fs : FS) (fp : String) :
    lookupFS (scrubFS fs) fp = (lookupFS fs fp).map scrubN := by
  induction fs with
  | nil => rfl
  | cons pt rest ih =>
      match pt with
      | (k, t) =>
          by_cases hk : k = fp
          · simp [scrubFS, lookupFS, hk]
          · simp only [scrubFS, List.map_cons, lookupFS, if_neg hk]
            exact ih

theorem dictInsert_map {α β : Type} (f : α → β) :
    ∀ (m : List (String × α)) (k : String) (v : α),
    dictInsert (m.map (fun kv => (kv.1, f kv.2))) k (f v) =
      (dictInsert m k v).map (fun kv => (kv.1, f kv.2)) := by
  intro m
  induction m with
  | nil => intro k v; rfl
  | cons kv rest ih =>
      intro k v
      match kv with
      | (k2, v2) =>
          by_cases hk : k2 = k
          · simp [dictInsert, hk]
          · simp only [List.map_cons, dictInsert, if_neg hk, ih]

theorem lookupD_map {α β : Type} (f : α → β) :
    ∀ (m : List (String × α)) (q : String),
    lookupD (m.map (fun kv => (kv.1, f kv.2))) q = (lookupD m q).map f := by
  intro m
  induction m with
  | nil => intro q; rfl
  | cons kv rest ih =>
      intro q
      match kv with
      | (k2, v2) =>
          by_cases hq : k2 = q
          · simp [lookupD, hq]
          · simp only [List.map_cons, lookupD, if_neg hq, ih]

theorem msD_eq_map (m : List (String × Dset)) :
    msD m = m.map (fun kv => (kv.1, scrubD kv.2)) := rfl

theorem msAD_eq_map (ad : List (String × List (String × Dset))) :
    msAD ad = ad.map (fun fd => (fd.1, msD fd.2)) := rfl

theorem collectE_scrub (ro : RO) :
    ∀ (cs : Entries) (pre : String) (acc : List (String × Dset)),
    collectEntries ro pre (msD acc) (scrubE cs) =
      ((collectEntries ro pre acc cs).1.map msD,
       (collectEntries ro pre acc cs).2) := by
  intro cs
  match cs with
  | .nil => intro pre acc; simp [scrubE, collectEntries, Except.map]
  | .cons k c rest =>
      intro pre acc
      cases c with
      | dataset d =>
          by_cases hro : ro (childName pre k) = true
          · rcases hres : collectEntries ro pre
                (dictInsert acc (childName pre k) d) rest with ⟨r2, tr2⟩
            have hihr := collectE_scrub ro rest pre
              (dictInsert acc (childName pre k) d)
            rw [hres] at hihr
            have hins : dictInsert (msD acc) (childName pre k) (scrubD d) =
                msD (dictInsert acc (childName pre k) d) :=
              dictInsert_map scrubD acc (childName pre k) d
            simp [scrubE, scrubN, collectEntries, collectNode, hro, hins,
              hres, hihr]
          · simp [scrubE, scrubN, collectEntries, collectNode, hro,
              Except.map]
      | group cs2 =>
          rcases hcs2 : collectEntries ro (childName pre k) acc cs2
            with ⟨r1, tr1⟩
          have hih1 := collectE_scrub ro cs2 (childName pre k) acc
          rw [hcs2] at hih1
          cases r1 with
          | ok acc2 =>
              rcases hres : collectEntries ro pre acc2 rest with ⟨r2, tr2⟩
              have hih2 := collectE_scrub ro rest pre acc2
              rw [hres] at hih2
              simp [scrubE, scrubN, collectEntries, collectNode, hcs2, hres,
                hih1, hih2, Except.map]
          | error e =>
              simp [scrubE, scrubN, collectEntries, collectNode, hcs2, hih1,
                Except.map]

theorem collectN_scrub (ro : RO) (name : String) (t : Node) :
    collectNode ro name [] (scrubN t) =
      ((collectNode ro name [] t).1.map msD,
       (collectNode ro name [] t).2) := by
  cases t with
  | group cs =>
      have := collectE_scrub ro cs name []
      simpa [scrubN, collectNode, msD] using this
  | dataset d =>
      by_cases hro : ro name = true
      · simp [scrubN, collectNode, hro, Except.map, dictInsert, msD]
      · simp [scrubN, collectNode, hro, Except.map]

theorem loadFiles_scrub (fs : FS) (ro : RO) :
    ∀ (fps : List String) (acc : List (String × List (String × Dset))),
    loadFiles (scrubFS fs) ro (msAD acc) fps =
      ((loadFiles fs ro acc fps).1.map msAD, (loadFiles fs ro acc fps).2) := by
  intro fps
  induction fps with
  | nil => intro acc; simp [loadFiles, Except.map]
  | cons fp rest ih =>
      intro acc
      rcases hfp : lookupFS fs fp with _ | t
      · simp [loadFiles, lookupFS_scrub, hfp, Except.map]
      · rcases hcoll : collectNode ro "" [] t with ⟨r, tr⟩
        have hcs := collectN_scrub ro "" t
        rw [hcoll] at hcs
        cases r with
        | ok m =>
            rcases hld : loadFiles fs ro (dictInsert acc fp m) rest
              with ⟨r2, tr2⟩
            have hihr := ih (dictInsert acc fp m)
            rw [hld] at hihr
            have hins : dictInsert (msAD acc) fp (msD m) =
                msAD (dictInsert acc fp m) :=
              dictInsert_map msD acc fp m
            simp [loadFiles, lookupFS_scrub, hfp, hcoll, hcs, hins, hld,
              hihr, Except.map]
        | error e =>
            simp [loadFiles, lookupFS_scrub, hfp, hcoll, hcs, Except.map]

theorem inner_keys_fold (m : List (String × Dset)) (acc : List String) :
    (msD m).foldl (fun a kv => setInsert a kv.1) acc =
      m.foldl (fun a kv => setInsert a kv.1) acc := by
  rw [msD_eq_map, List.foldl_map]

theorem allKeys_scrub (ad : List (String × List (String × Dset))) :
    allKeys (msAD ad) = allKeys ad := by
  rw [allKeys, allKeys, msAD_eq_map, List.foldl_map]
  congr 1
  funext acc fd
  exact inner_keys_fold fd.2 acc

theorem cellOf_msD (m : List (String × Dset)) (q : String) :
    cellOf (msD m) q = cellOf m q := by
  rw [cellOf, cellOf, msD_eq_map, lookupD_map]
  rcases lookupD m q with _ | d
  · rfl
  · rfl

/-- Scrubbing every array element changes no comparison output: the
comparison is structural only. -/
theorem compare_scrub (fs : FS) (ro : RO) (fps : List String) :
    compare_episodes (scrubFS fs) ro fps = compare_episodes fs ro fps := by
  have hload := loadFiles_scrub fs ro fps []
  rcases hld : loadFiles fs ro [] fps with ⟨r, tr⟩
  rw [hld] at hload
  have hload2 : loadFiles (scrubFS fs) ro [] fps = (r.map msAD, tr) := by
    rw [show ([] : List (String × List (String × Dset))) = msAD [] from rfl]
    exact hload
  cases r with
  | error e => simp [compare_episodes, hld, hload2, Except.map]
  | ok ad =>
      simp only [compare_episodes, hld, hload2, Except.map, allKeys_scrub]
      congr 1
      congr 1
      apply List.map_congr_left
      intro q _
      congr 1
      rw [msAD_eq_map, List.map_map]
      apply List.map_congr_left
      intro fd _
      simp only [Function.comp]
      rw [cellOf_msD]

theorem mem_loadDict {α : Type} (v : String → α) :
    ∀ (fps : List String) (acc : List (String × α)) (x : String × α),
    x ∈ fps.foldl (fun ad fp => dictInsert ad fp (v fp)) acc →
    x ∈ acc ∨ ∃ fp ∈ fps, x = (fp, v fp) := by
  intro fps
  induction fps with
  | nil => intro acc x h; exact Or.inl h
  | cons fp rest ih =>
      intro acc x h
      rcases ih (dictInsert acc fp (v fp)) x h with h2 | ⟨fp2, h2, h3⟩
      · rcases mem_dictInsert acc fp (v fp) x h2 with h3 | h3
        · exact Or.inl h3
        · exact Or.inr ⟨fp, List.mem_cons_self _ _, h3⟩
      · exact Or.inr ⟨fp2, List.mem_cons_of_mem _ h2, h3⟩

theorem lookupD_mem {α : Type} :
    ∀ (m : List (String × α)) (q : String) (v : α),
    lookupD m q = some v → (q, v) ∈ m := by
  intro m
  induction m with
  | nil => intro q v h; cases h
  | cons kv rest ih =>
      intro q v h
      match kv with
      | (k2, v2) =>
          simp only [lookupD] at h
          by_cases hq : k2 = q
          · rw [if_pos hq] at h
            cases h
            exact hq ▸ List.mem_cons_self _ _
          · rw [if_neg hq] at h
            exact List.mem_cons_of_mem _ (ih q v h)

theorem lookupD_none_iff {α : Type} :
    ∀ (m : List (String × α)) (q : String),
    lookupD m q = none ↔ q ∉ m.map Prod.fst := by
  intro m
  induction m with
  | nil => simp [lookupD]
  | cons kv rest ih =>
      intro q
      match kv with
      | (k2, v2) =>
          simp only [lookupD, List.map_cons, List.mem_cons]
          by_cases hq : k2 = q
          · subst hq
            simp
          · rw [if_neg hq, ih]
            constructor
            · intro h hcontra
              rcases hcontra with h2 | h2
              · exact hq h2.symm
              · exact h h2
            · intro h h2
              exact h (Or.inr h2)

theorem datasetNames_eq_keys (cs : Entries) :
    datasetNames (.group cs) = (namedDsets "" cs).map Prod.fst := by
  rw [datasetNames]
  exact dnamesE_eq "" cs

/-- C5: the comparison emits one row per element of the lexicographically
sorted union of the dataset paths of all compared files; each row shows,
per loaded file, the dataset's shape and dtype when the path is present in
that file and the missing marker when absent; and no array content takes
part — scrubbing every element to zero leaves the entire output unchanged. -/
theorem compare_structural (fs : FS) (ro : RO) (fps : List String)
    (hro : ∀ q, ro q = true)
    (hfps : ∀ fp ∈ fps, ∃ cs, lookupFS fs fp = some (.group cs) ∧
      wfEntries cs = true) :
    ∃ rows, (compare_episodes fs ro fps).1 = .ok rows ∧
      (rows.map Row.key).Sorted (· ≤ ·) ∧
      (rows.map Row.key).Nodup ∧
      (∀ q, q ∈ rows.map Row.key ↔ ∃ fp ∈ fps, ∃ cs,
        lookupFS fs fp = some (.group cs) ∧
        q ∈ datasetNames (.group cs)) ∧
      (∀ row ∈ rows, row.cells.map Prod.fst = firstDedup fps ∧
        (∀ fp cell, (fp, cell) ∈ row.cells → fp ∈ fps ∧ ∃ cs,
          lookupFS fs fp = some (.group cs) ∧
          ((row.key ∉ datasetNames (.group cs) ∧ cell = .missing) ∨
           (∃ comps d, comps ≠ [] ∧ row.key = joinComps comps ∧
             resolveStrict (.group cs) comps = some (.dataset d) ∧
             cell = .info d.shape d.dtype)))) ∧
      compare_episodes (scrubFS fs) ro fps = compare_episodes fs ro fps := by
  have hfps1 : ∀ fp ∈ fps, ∃ cs, lookupFS fs fp = some (.group cs) := by
    intro fp hfp
    obtain ⟨cs, h1, _⟩ := hfps fp hfp
    exact ⟨cs, h1⟩
  have hload := loadFiles_ok fs ro hro fps [] hfps1
  have hdictOf : ∀ fp ∈ fps, ∃ cs, lookupFS fs fp = some (.group cs) ∧
      wfEntries cs = true ∧ dictOf fs fp = namedDsets "" cs := by
    intro fp hfp
    obtain ⟨cs, h1, h2⟩ := hfps fp hfp
    refine ⟨cs, h1, h2, ?_⟩
    rw [dictOf, h1]
    exact foldl_dictInsert_fresh (namedDsets "" cs) []
      (namedDsets_keys_nodup cs h2) (fun k _ => lookupD_nil k)
  set ad := fps.foldl (fun ad fp => dictInsert ad fp (dictOf fs fp)) []
    with had
  have hmemad : ∀ x ∈ ad, ∃ fp ∈ fps, x = (fp, dictOf fs fp) := by
    intro x hx
    rcases mem_loadDict (dictOf fs) fps [] x hx with h | h
    · simp at h
    · exact h
  have hmemad2 : ∀ fp ∈ fps, (fp, dictOf fs fp) ∈ ad := by
    intro fp hfp
    apply lookupD_mem
    rw [had, lookupD_foldl_dictInsert (dictOf fs) fps [] fp, if_pos hfp]
  refine ⟨((allKeys ad).insertionSort (· ≤ ·)).map
    (fun q => ⟨q, ad.map (fun fd => (fd.1, cellOf fd.2 q))⟩),
    ?_, ?_, ?_, ?_, ?_, compare_scrub fs ro fps⟩
  · simp [compare_episodes, hload, had]
  · have hkeys : (((allKeys ad).insertionSort (· ≤ ·)).map
        (fun q => (⟨q, ad.map (fun fd => (fd.1, cellOf fd.2 q))⟩ : Row))).map
          Row.key = (allKeys ad).insertionSort (· ≤ ·) := by
      rw [List.map_map]
      rw [show (Row.key ∘ fun q =>
          (⟨q, ad.map (fun fd => (fd.1, cellOf fd.2 q))⟩ : Row)) = id from by
        funext q2
        rfl]
      exact List.map_id _
    rw [hkeys]
    exact List.sorted_insertionSort (· ≤ ·) (allKeys ad)
  · have hkeys : (((allKeys ad).insertionSort (· ≤ ·)).map
        (fun q => (⟨q, ad.map (fun fd => (fd.1, cellOf fd.2 q))⟩ : Row))).map
          Row.key = (allKeys ad).insertionSort (· ≤ ·) := by
      rw [List.map_map]
      rw [show (Row.key ∘ fun q =>
          (⟨q, ad.map (fun fd => (fd.1, cellOf fd.2 q))⟩ : Row)) = id from by
        funext q2
        rfl]
      exact List.map_id _
    rw [hkeys]
    exact (List.perm_insertionSort (· ≤ ·) (allKeys ad)).nodup_iff.mpr
      (allKeys_nodup ad)
  · intro q
    have hkeys : (((allKeys ad).insertionSort (· ≤ ·)).map
        (fun q => (⟨q, ad.map (fun fd => (fd.1, cellOf fd.2 q))⟩ : Row))).map
          Row.key = (allKeys ad).insertionSort (· ≤ ·) := by
      rw [List.map_map]
      rw [show (Row.key ∘ fun q =>
          (⟨q, ad.map (fun fd => (fd.1, cellOf fd.2 q))⟩ : Row)) = id from by
        funext q2
        rfl]
      exact List.map_id _
    rw [hkeys, (List.perm_insertionSort (· ≤ ·) (allKeys ad)).mem_iff,
      mem_allKeys]
    constructor
    · rintro ⟨fd, hfd, hq⟩
      obtain ⟨fp, hfp, hx⟩ := hmemad fd hfd
      obtain ⟨cs, h1, h2, h3⟩ := hdictOf fp hfp
      refine ⟨fp, hfp, cs, h1, ?_⟩
      rw [datasetNames_eq_keys, ← h3, ← show fd.2 = dictOf fs fp from by
        rw [hx]]
      exact hq
    · rintro ⟨fp, hfp, cs, h1, hq⟩
      obtain ⟨cs2, h12, h22, h3⟩ := hdictOf fp hfp
      rw [h1] at h12
      cases h12
      refine ⟨(fp, dictOf fs fp), hmemad2 fp hfp, ?_⟩
      rw [show (fp, dictOf fs fp).2 = dictOf fs fp from rfl, h3,
        ← datasetNames_eq_keys]
      exact hq
  · intro row hrow
    simp only [List.mem_map] at hrow
    obtain ⟨q, hqmem, hq⟩ := hrow
    constructor
    · rw [← hq]
      simp only [List.map_map]
      rw [show ((fun x : String × Cell => x.1) ∘
          (fun fd : String × List (String × Dset) =>
            (fd.1, cellOf fd.2 q))) = Prod.fst from by
        funext fd
        rfl]
      rw [had, map_fst_foldl_dictInsert (dictOf fs) fps []]
      rfl
    · intro fp cell hcell
      rw [← hq] at hcell
      simp only [List.mem_map] at hcell
      obtain ⟨fd, hfd, hmk⟩ := hcell
      rw [Prod.mk.injEq] at hmk
      obtain ⟨hfp2, hcell2⟩ := hmk
      obtain ⟨fp2, hfp3, hx⟩ := hmemad fd hfd
      have hfdfst : fd.1 = fp2 := by rw [hx]
      have hfpeq : fp2 = fp := by rw [← hfp2, hfdfst]
      subst hfpeq
      refine ⟨hfp3, ?_⟩
      obtain ⟨cs, h1, h2, h3⟩ := hdictOf fp2 hfp3
      refine ⟨cs, h1, ?_⟩
      have hfd2 : fd.2 = namedDsets "" cs := by rw [hx]; exact h3
      rw [← hcell2, hfd2]
      have hkey : row.key = q := by rw [← hq]
      rcases hlk : lookupD (namedDsets "" cs) q with _ | d
      · left
        constructor
        · rw [hkey, datasetNames_eq_keys]
          exact (lookupD_none_iff (namedDsets "" cs) q).mp hlk
        · rw [cellOf, hlk]
      · right
        have hmem := (lookupD_eq_some_iff_mem (namedDsets "" cs)
          (namedDsets_keys_nodup cs h2) q d).mp hlk
        obtain ⟨comps, hcm, hqs⟩ := (mem_namedDsets "" cs q d).mp hmem
        obtain ⟨hne, hv⟩ := pathsE_valid cs h2 (comps, d) hcm
        have hres := (pathsE_resolve cs h2 comps d).mp hcm
        refine ⟨comps, d, hne, ?_, hres.2, by rw [cellOf, hlk]⟩
        rw [hkey, hqs]
        exact strName_root comps hv hne

/-- Witness for C5 at the two concrete containers. -/
theorem compare_structural_witness :
    lookupFS fsW "a.h5" = some (.group entW) ∧ wfEntries entW = true ∧
    lookupFS fsW "b.h5" = some (.group entW2) ∧ wfEntries entW2 = true ∧
    (∃ rows, (compare_episodes fsW roW ["a.h5", "b.h5"]).1 = .ok rows ∧
      (rows.map Row.key).Sorted (· ≤ ·) ∧
      (rows.map Row.key).Nodup ∧
      (∀ q, q ∈ rows.map Row.key ↔ ∃ fp ∈ ["a.h5", "b.h5"], ∃ cs,
        lookupFS fsW fp = some (.group cs) ∧
        q ∈ datasetNames (.group cs)) ∧
      (∀ row ∈ rows, row.cells.map Prod.fst = firstDedup ["a.h5", "b.h5"] ∧
        (∀ fp cell, (fp, cell) ∈ row.cells → fp ∈ ["a.h5", "b.h5"] ∧ ∃ cs,
          lookupFS fsW fp = some (.group cs) ∧
          ((row.key ∉ datasetNames (.group cs) ∧ cell = .missing) ∨
           (∃ comps d, comps ≠ [] ∧ row.key = joinComps comps ∧
             resolveStrict (.group cs) comps = some (.dataset d) ∧
             cell = .info d.shape d.dtype)))) ∧
      compare_episodes (scrubFS fsW) roW ["a.h5", "b.h5"] =
        compare_episodes fsW roW ["a.h5", "b.h5"]) :=
  ⟨by decide, by decide, by decide, by decide,
    compare_structural fsW roW ["a.h5", "b.h5"] (fun _ => rfl) (by
      intro fp hfp
      simp only [List.mem_cons, List.not_mem_nil, or_false] at hfp
      rcases hfp with rfl | rfl
      · exact ⟨entW, by decide, by decide⟩
      · exact ⟨entW2, by decide, by decide⟩)⟩

/-- Witness for C10 at a list with a duplicated path. -/
theorem compare_duplicate_paths_witness :
    lookupFS fsW "a.h5" = some (.group entW) ∧
    lookupFS fsW "b.h5" = some (.group entW2) ∧
    (∃ rows, (compare_episodes fsW roW ["a.h5", "b.h5", "a.h5"]).1 =
        .ok rows ∧
      (∀ row ∈ rows, row.cells.map Prod.fst =
        firstDedup ["a.h5", "b.h5", "a.h5"]) ∧
      (∀ fp, (compare_episodes fsW roW ["a.h5", "b.h5", "a.h5"]).2.count
        (.opened fp) = (["a.h5", "b.h5", "a.h5"] : List String).count fp)) :=
  ⟨by decide, by decide,
    compare_duplicate_paths fsW roW ["a.h5", "b.h5", "a.h5"] (fun _ => rfl)
      (by
        intro fp hfp
        simp only [List.mem_cons, List.not_mem_nil, or_false] at hfp
        rcases hfp with rfl | rfl | rfl
        · exact ⟨entW, by decide⟩
        · exact ⟨entW2, by decide⟩
        · exact ⟨entW, by decide⟩)⟩

end ReadHdf5
